import Mathlib

/-!
Verification development for the VolunteerSortingHat shift-assignment core.

The definitions below are a shallow embedding of the TypeScript source:

* `src/app/src/types/index.ts` — the data model (`Shift`, `Volunteer`,
  `Settings`, `SolverResult`);
* `src/app/src/lib/solver/feasibilityChecker.ts` — the bipartite matching
  oracle (`checkMatchingFeasibility`, `findAugmentingPath`,
  `detectMinimumGuarantee`, `detectOptimalSettings`);
* `src/unnamed/part_011` (the MILP solver module) — the seeded random
  number generator, the conflict-graph builder (`shiftsOverlap`,
  `shiftsSequential` and the pair loops of `solveShiftAssignment`), the
  egalitarian binary search (`runEgalitarianSolver`), the hard-fill phase
  (`runHardFillPhase`) and the infeasibility diagnoser
  (`diagnoseInfeasibility`).

Embedding conventions:

* JavaScript `Map` objects are embedded as total functions built by
  successive `Function.update` applications (`set` = update, `get` with
  the `|| default` idiom = a total function into the defaulted codomain);
  where iteration order of a map matters (volunteer preferences) the map
  is embedded as an association list in insertion order.
* `number` values that the source only ever uses for exact small-range
  arithmetic (points, multipliers, satisfaction targets) are embedded as
  `ℚ`; timestamps (`Date.getTime()` millisecond values) as `ℤ`; counts,
  capacities and ranks as `ℕ`.  The one place where IEEE-754 double
  rounding is observable in the source — the seeded random number
  generator, whose intermediate product reaches 2^61 — is embedded with
  an explicit model of rounding to 53 significant bits (`rnd53`).
* The external HiGHS MILP solver is not part of the repository; the
  search loops that drive it are embedded as functions of an abstract
  solve oracle.
* Human-readable `message` / `description` / `suggestion` strings (pure
  presentation metadata) are elided from embedded results; discriminants
  such as issue types and relaxation level names are kept.
-/

namespace VSH

/-- Shift record, from `src/app/src/types/index.ts`.  `startTime` and
`endTime` are millisecond timestamps (`Date` values compare numerically);
`date` is an opaque day key compared only for equality. -/
structure Shift where
  id : String
  date : String
  role : String
  startTime : ℤ
  endTime : ℤ
  capacity : ℕ
  points : ℚ
  deriving DecidableEq, Repr

/-- Volunteer record, from `src/app/src/types/index.ts`.  `preferences` is
a JS `Map` from shift id to rank, embedded as an association list in
insertion order. -/
structure Volunteer where
  name : String
  preAssignedPoints : ℚ
  preferences : List (String × ℕ)
  deriving DecidableEq, Repr

/-- Settings record, from `src/app/src/types/index.ts` (the fields the
solver core reads). -/
structure Settings where
  minPoints : ℚ
  maxOver : ℚ
  maxShifts : ℕ
  forbidBackToBack : Bool
  backToBackGap : ℚ
  guaranteeLevel : ℕ
  allowRelaxation : Bool
  seed : ℕ
  deriving DecidableEq, Repr

/-- Assignment pair, from `src/app/src/types/index.ts`. -/
structure Assignment where
  volunteerName : String
  shiftId : String
  deriving DecidableEq, Repr

/-- Status discriminant of `SolverResult` in
`src/app/src/types/index.ts`: the union type
`'optimal' | 'feasible' | 'infeasible' | 'error'`. -/
inductive SolverStatus where
  | optimal
  | feasible
  | infeasible
  | error
  deriving DecidableEq, Repr, Fintype

/-- Status taxonomy as the specification names it (§3 of the spec):
`Optimal | Feasible | Infeasible | Transient`.  `Transient` is the spec's
name for the adapter-normalised flaky-error outcome. -/
inductive SpecSolverStatus where
  | Optimal
  | Feasible
  | Infeasible
  | Transient
  deriving DecidableEq, Repr, Fintype

/-- Correspondence between the spec's status taxonomy and the code's
status literals: `Transient` names the code's `'error'` alternative. -/
def statusOfSpec : SpecSolverStatus → SolverStatus
  | .Optimal => .optimal
  | .Feasible => .feasible
  | .Infeasible => .infeasible
  | .Transient => .error

/-- Relaxation level names used by the hard-fill phase of
`src/unnamed/part_011` (`'full' | 'relaxed-points' | 'minimal'`). -/
inductive RelaxName where
  | full
  | relaxedPoints
  | minimal
  deriving DecidableEq, Repr

/-- Relaxation descriptor attached to a hard-fill result
(`SolverResult.relaxation` in `src/app/src/types/index.ts`). -/
structure Relaxation where
  level : RelaxName
  minPointsMultiplier : ℚ
  maxShiftsMultiplier : ℚ
  originalMinPoints : ℚ
  originalMaxShifts : ℕ
  deriving DecidableEq, Repr

/-- Issue discriminants of the infeasibility diagnoser
(`diagnoseInfeasibility` in `src/unnamed/part_011`); the prose
`description` / `suggestion` fields are presentation metadata and are
elided. -/
inductive IssueType where
  | capacityExcess
  | pointsShortage
  | pointsExcess
  | concurrentOverlap
  | backToBackTight
  | guaranteeImpossible
  | guaranteeBottleneck
  deriving DecidableEq, Repr

/-- Solver result, from `src/app/src/types/index.ts`, with the prose
`message` field elided and the diagnosis kept as its list of issue
types. -/
structure SolverResult where
  status : SolverStatus
  phase : ℕ
  assignments : List Assignment
  relaxation : Option Relaxation := none
  infeasibilityDiagnosis : Option (List IssueType) := none
  deriving DecidableEq, Repr

/-- Success test used throughout the orchestrator:
`result.status === 'optimal' || result.status === 'feasible'`. -/
def SolverStatus.isSuccess : SolverStatus → Bool
  | .optimal => true
  | .feasible => true
  | _ => false

/-! ### Seeded random number generator (`SeededRandom`, part_011 lines 54-69)

The source computes `this.seed = (this.seed * 1103515245 + 12345) & 0x7fffffff`
on JavaScript `number`s, i.e. IEEE-754 binary64 doubles.  The nonnegative
integer operands are exactly representable, but the product reaches 2^61,
beyond the 53-bit significand, so ECMAScript multiplication and addition
round the exact integer result to the nearest representable double
(ties to even).  `rnd53` is that rounding for nonnegative integers; the
`& 0x7fffffff` step on a nonnegative integer-valued double is reduction
mod 2^31. -/

/-- Bit length of a natural number, computed with an explicit structural
fuel so that it reduces by kernel computation (`bitLen n` is the number
of binary digits of `n`, 0 for 0). -/
def bitsAux : ℕ → ℕ → ℕ
  | 0, _ => 0
  | f + 1, n => if n = 0 then 0 else 1 + bitsAux f (n / 2)

/-- Bit length of a natural number (`n` itself is always enough fuel). -/
def bitLen (n : ℕ) : ℕ := bitsAux n n

/-- Round a nonnegative integer to the nearest IEEE-754 binary64 value
(53 significant bits, ties to even).  Integers below 2^53 are exact. -/
def rnd53 (n : ℕ) : ℕ :=
  if n < 2 ^ 53 then n
  else
    let k := bitLen n - 53
    let q := n / 2 ^ k
    let r := n % 2 ^ k
    if r < 2 ^ (k - 1) then q * 2 ^ k
    else if 2 ^ (k - 1) < r then (q + 1) * 2 ^ k
    else if q % 2 = 0 then q * 2 ^ k else (q + 1) * 2 ^ k

/-- One state update of `SeededRandom.next` with JavaScript double
semantics: `(seed * 1103515245 + 12345) & 0x7fffffff`, each arithmetic
operation rounding to binary64. -/
def jsSeedNext (seed : ℕ) : ℕ :=
  rnd53 (rnd53 (seed * 1103515245) + 12345) % 2 ^ 31

/-- The exact linear congruential generator update the spec prescribes:
`seed ← (1103515245 · seed + 12345) mod 2^31` in exact integer
arithmetic. -/
def lcgNext (seed : ℕ) : ℕ :=
  (1103515245 * seed + 12345) % 2 ^ 31

/-! ### Conflict graph builder (part_011 lines 72-85 and 133-148) -/

/-- Overlap test `shiftsOverlap` of part_011: same `date` key, and
`s1.startTime < s2.endTime && s2.startTime < s1.endTime` (JS `Date`
comparison is numeric). -/
def shiftsOverlap (s1 s2 : Shift) : Bool :=
  if s1.date ≠ s2.date then false
  else decide (s1.startTime < s2.endTime) && decide (s2.startTime < s1.endTime)

/-- Sequential test `shiftsSequential` of part_011: same `date` key and
`0 ≤ s2.startTime − s1.endTime ≤ gapHours` converted to milliseconds. -/
def shiftsSequential (s1 s2 : Shift) (gapHours : ℚ) : Bool :=
  if s1.date ≠ s2.date then false
  else
    let gapMs : ℚ := gapHours * 60 * 60 * 1000
    let gap : ℤ := s2.startTime - s1.endTime
    decide (0 ≤ gap) && decide ((gap : ℚ) ≤ gapMs)

/-- The `overlappingPairs` loop of `solveShiftAssignment` (part_011 lines
137-142): for each index `i`, every `j > i` with overlapping shifts
contributes the pair `(shifts[i].id, shifts[j].id)`. -/
def overlappingPairs (shifts : List Shift) : List (String × String) :=
  shifts.enum.flatMap fun is =>
    ((shifts.enum.filter fun jt => decide (is.1 < jt.1) && shiftsOverlap is.2 jt.2).map
      fun jt => (is.2.id, jt.2.id))

/-- The `sequentialPairs` loop of `solveShiftAssignment` (part_011 lines
143-147): for each index `i`, every `j ≠ i` with `shifts[j]` sequential
after `shifts[i]` contributes the directed pair
`(shifts[i].id, shifts[j].id)`. -/
def sequentialPairs (shifts : List Shift) (gapHours : ℚ) : List (String × String) :=
  shifts.enum.flatMap fun is =>
    ((shifts.enum.filter fun jt => decide (is.1 ≠ jt.1) && shiftsSequential is.2 jt.2 gapHours).map
      fun jt => (is.2.id, jt.2.id))

/-! ### Preference ranks and satisfaction weights (part_011 lines 120-121,
154-166) -/

/-- The `volByName` lookup map of `solveShiftAssignment`
(`new Map(volunteers.map(v => [v.name, v]))`): later entries win. -/
def volByName (vols : List Volunteer) : String → Option Volunteer :=
  vols.foldl (fun m v => Function.update m v.name (some v)) (fun _ => none)

/-- The `shiftById` lookup map of `solveShiftAssignment`. -/
def shiftById (shifts : List Shift) : String → Option Shift :=
  shifts.foldl (fun m s => Function.update m s.id (some s)) (fun _ => none)

/-- `getRank` of part_011: the volunteer's rank for a shift, `none` for
the source's `Infinity` (unknown volunteer or unranked shift). -/
def getRank (vols : List Volunteer) (volName shiftId : String) : Option ℕ :=
  (volByName vols volName).bind fun v =>
    (v.preferences.find? fun p => p.1 = shiftId).map (·.2)

/-- `getSatisfactionWeight` of part_011: `6 - rank` for ranks 1..5,
otherwise 0 (the source's `Infinity` rank is embedded as `none`). -/
def getSatisfactionWeight (rank : Option ℕ) : ℚ :=
  match rank with
  | some r => if 1 ≤ r ∧ r ≤ 5 then (6 : ℚ) - r else 0
  | none => 0

/-- Left-hand side of the phase-1 average-satisfaction constraint row for
one volunteer (part_011 lines 387-401): the row coefficients are
`getSatisfactionWeight(getRank(v, s)) - targetAvg`, applied to the 0/1
assignment `x`. -/
def avgSatLhs (vols : List Volunteer) (shiftIds : List String) (targetAvg : ℚ)
    (vName : String) (x : String → String → Bool) : ℚ :=
  (shiftIds.map fun sId =>
    (getSatisfactionWeight (getRank vols vName sId) - targetAvg) *
      (if x vName sId then 1 else 0)).sum

/-! ### Egalitarian binary search (`runEgalitarianSolver`, part_011 lines
208-254) and the orchestrator dispatch (lines 175-203)

The inner MILP solve (`tryWithTargetAverage`, which builds the model and
invokes the external HiGHS WASM solver) is abstracted as an oracle
`solve : ℚ → SolverResult`.  The source's `while` loop terminates because
`high - low` halves every iteration; the embedding uses a structural fuel
and `egalLoop_fuel_sufficient` shows any fuel from 6 up gives the loop's
fixpoint from the initial interval `[0, 5]`. -/

/-- One run of the source's binary-search loop: while
`high - low > tolerance` (tolerance 0.1), solve at `(low + high) / 2`;
on `optimal`/`feasible` record the result as best and move `low` up,
otherwise move `high` down; then yield the recorded best. -/
def egalLoop (solve : ℚ → SolverResult) :
    ℕ → ℚ → ℚ → Option SolverResult → Option SolverResult
  | 0, _, _, best => best
  | fuel + 1, low, high, best =>
    if 1 / 10 < high - low then
      let targetAvg := (low + high) / 2
      let result := solve targetAvg
      if result.status.isSuccess then egalLoop solve fuel targetAvg high (some result)
      else egalLoop solve fuel low targetAvg best
    else best

/-- The result `runEgalitarianSolver` returns when no target ever
succeeded (part_011 lines 248-253; the prose message is elided). -/
def noFeasibleResult : SolverResult :=
  { status := .infeasible, phase := 1, assignments := [] }

/-- `runEgalitarianSolver` of part_011: binary search over
`[low, high] = [0, 5]` with tolerance 0.1, returning the recorded best
result, or the infeasible phase-1 result when no target succeeded. -/
def runEgalitarianSolver (solve : ℚ → SolverResult) : SolverResult :=
  match egalLoop solve 6 0 5 none with
  | some best => best
  | none => noFeasibleResult

/-- Fuel adequacy for the embedded loop: once the interval width is at
most `tolerance · 2^fuel`, adding fuel does not change the result; with
the initial interval `[0, 5]`, fuel 6 is enough (5 ≤ 0.1 · 2^6). -/
theorem egalLoop_fuel_sufficient (solve : ℚ → SolverResult) :
    ∀ (n k : ℕ) (low high : ℚ) (best : Option SolverResult),
      high - low ≤ 2 ^ n * (1 / 10) →
      egalLoop solve (n + k) low high best = egalLoop solve n low high best := by
  intro n
  induction n with
  | zero =>
    intro k low high best h
    cases k with
    | zero => rfl
    | succ k =>
      simp only [egalLoop, Nat.zero_add]
      rw [if_neg]
      simp only [pow_zero, one_mul] at h
      exact not_lt.mpr h
  | succ n ih =>
    intro k low high best h
    simp only [Nat.succ_add, egalLoop]
    by_cases hc : 1 / 10 < high - low
    · rw [if_pos hc, if_pos hc]
      have hw : high - (low + high) / 2 ≤ 2 ^ n * (1 / 10) ∧
          (low + high) / 2 - low ≤ 2 ^ n * (1 / 10) := by
        constructor <;> ring_nf <;> ring_nf at h ⊢ <;> nlinarith [h]
      by_cases hs : (solve ((low + high) / 2)).status.isSuccess
      · rw [if_pos hs, if_pos hs]
        exact ih k _ _ _ hw.1
      · rw [if_neg hs, if_neg hs]
        exact ih k _ _ _ hw.2
    · rw [if_neg hc, if_neg hc]

/-- Coverage check of the orchestrator (part_011 lines 178-191): every
shift must have at least `capacity` assignments. -/
def allShiftsFilled (shifts : List Shift) (assignments : List Assignment) : Bool :=
  shifts.all fun shift =>
    shift.capacity ≤ (assignments.filter fun a => a.shiftId = shift.id).length

/-- Orchestrator dispatch of `solveShiftAssignment` (part_011 lines
175-203): run the egalitarian solver; on success return its result if
every shift is filled, otherwise hard-fill seeded with its assignments;
on failure hard-fill with no seed solution.  The hard-fill phase is
abstracted as `hardFill`. -/
def solveShiftAssignment (shifts : List Shift)
    (solve : ℚ → SolverResult) (hardFill : List Assignment → SolverResult) :
    SolverResult :=
  let result := runEgalitarianSolver solve
  if result.status.isSuccess then
    if allShiftsFilled shifts result.assignments then result
    else hardFill result.assignments
  else hardFill []

/-- Specification-side model of the egalitarian search, written from the
spec §4.5 bullet list: `low ← 0; high ← 5; best ← None`; while
`high - low > 0.1`, set `τ ← (low + high) / 2` and solve; on
`Optimal`/`Feasible` set `best ← result; low ← τ`, otherwise `high ← τ`;
after the loop return `best`, and if `best` is `None` report
infeasibility. -/
def specEgalStep (solve : ℚ → SolverResult) :
    ℕ → ℚ × ℚ × Option SolverResult → Option SolverResult
  | 0, state => state.2.2
  | n + 1, (low, high, best) =>
    if high - low > 1 / 10 then
      let τ := (low + high) / 2
      match (solve τ).status with
      | .optimal => specEgalStep solve n (τ, high, some (solve τ))
      | .feasible => specEgalStep solve n (τ, high, some (solve τ))
      | _ => specEgalStep solve n (low, τ, best)
    else best

/-- Specification-side egalitarian search result (spec §4.5): the
recorded best, or the infeasible phase-1 report when `best` is `None`. -/
def specEgalitarianSearch (solve : ℚ → SolverResult) : SolverResult :=
  (specEgalStep solve 6 (0, 5, none)).getD
    { status := .infeasible, phase := 1, assignments := [] }

/-! ### Hard-fill phase (`runHardFillPhase`, part_011 lines 525-577)

The inner MILP solve (`tryHardFill`) and the diagnoser output are
abstracted as parameters; the relaxation-level sweep is embedded
directly. -/

/-- One relaxation level of the hard-fill phase: name plus the workload
floor, shift count, and workload ceiling multipliers. -/
structure RelaxLevel where
  name : RelaxName
  minPointsMultiplier : ℚ
  maxShiftsMultiplier : ℚ
  maxPointsMultiplier : ℚ
  deriving DecidableEq, Repr

/-- Relaxation levels of `runHardFillPhase` (part_011 lines 529-541):
the three-step ladder when `allowRelaxation` is set, otherwise only
`full`. -/
def relaxationLevels (allowRelaxation : Bool) : List RelaxLevel :=
  if allowRelaxation then
    [⟨.full, 1, 1, 1⟩, ⟨.relaxedPoints, 1 / 2, 3 / 2, 3 / 2⟩, ⟨.minimal, 0, 2, 2⟩]
  else
    [⟨.full, 1, 1, 1⟩]

/-- The level sweep of `runHardFillPhase` (part_011 lines 543-577): try
each level in order; the first `optimal`/`feasible` result is returned,
decorated with a relaxation descriptor when the level is not `full`;
when every level fails, return the infeasible phase-2 result carrying
the seed assignments and the diagnosis. -/
def hardFillLoop (settings : Settings) (tryHF : ℚ → ℚ → ℚ → SolverResult)
    (diagnosis : List IssueType) (existing : List Assignment) :
    List RelaxLevel → SolverResult
  | [] =>
    { status := .infeasible, phase := 2, assignments := existing,
      infeasibilityDiagnosis := some diagnosis }
  | level :: rest =>
    let result := tryHF level.minPointsMultiplier level.maxShiftsMultiplier
      level.maxPointsMultiplier
    if result.status.isSuccess then
      if level.name ≠ .full then
        { result with
          relaxation := some ⟨level.name, level.minPointsMultiplier,
            level.maxShiftsMultiplier, settings.minPoints, settings.maxShifts⟩ }
      else result
    else hardFillLoop settings tryHF diagnosis existing rest

/-- `runHardFillPhase` of part_011, with the MILP solve and the
diagnoser output abstracted. -/
def runHardFillPhase (settings : Settings) (tryHF : ℚ → ℚ → ℚ → SolverResult)
    (diagnosis : List IssueType) (existing : List Assignment) : SolverResult :=
  hardFillLoop settings tryHF diagnosis existing
    (relaxationLevels settings.allowRelaxation)

/-- Specification-side model of the hard-fill sweep, written from spec
§4.6: attempt `full (1.0, 1.0, 1.0)`, `relaxed-points (0.5, 1.5, 1.5)`,
`minimal (0, 2.0, 2.0)` in order (only `full` when relaxation is
disallowed); the first `Optimal`/`Feasible` level yields the final
result with a relaxation descriptor attached iff the level is not
`full`; if all levels fail, attach the diagnosis to the infeasible
result. -/
def specHardFillSweep (settings : Settings) (tryHF : ℚ → ℚ → ℚ → SolverResult)
    (diagnosis : List IssueType) (existing : List Assignment) :
    List RelaxLevel → SolverResult
  | [] =>
    { status := .infeasible, phase := 2, assignments := existing,
      infeasibilityDiagnosis := some diagnosis }
  | level :: rest =>
    match (tryHF level.minPointsMultiplier level.maxShiftsMultiplier
      level.maxPointsMultiplier).status with
    | .optimal | .feasible =>
      let result := tryHF level.minPointsMultiplier level.maxShiftsMultiplier
        level.maxPointsMultiplier
      if level.name = .full then result
      else
        { result with
          relaxation := some ⟨level.name, level.minPointsMultiplier,
            level.maxShiftsMultiplier, settings.minPoints, settings.maxShifts⟩ }
    | _ => specHardFillSweep settings tryHF diagnosis existing rest

/-- Specification-side hard-fill phase (spec §4.6). -/
def specHardFillPhase (settings : Settings) (tryHF : ℚ → ℚ → ℚ → SolverResult)
    (diagnosis : List IssueType) (existing : List Assignment) : SolverResult :=
  specHardFillSweep settings tryHF diagnosis existing
    (if settings.allowRelaxation then
      [⟨.full, 1, 1, 1⟩, ⟨.relaxedPoints, 1 / 2, 3 / 2, 3 / 2⟩, ⟨.minimal, 0, 2, 2⟩]
    else [⟨.full, 1, 1, 1⟩])

/-! ### Infeasibility diagnoser (`diagnoseInfeasibility`, part_011 lines
580-714) -/

/-- The scanline sweep `calculateMaxConcurrentCapacity` (part_011 lines
696-714): per shift, a `+capacity` event at its start and a `-capacity`
event at its end; sort events by time (JS `Array.prototype.sort` is
stable, as is `List.mergeSort`); scan with a running sum and record the
maximum. -/
def maxConcurrentCapacity (shifts : List Shift) : ℤ :=
  let events := shifts.flatMap fun s =>
    [(s.startTime, (s.capacity : ℤ)), (s.endTime, -(s.capacity : ℤ))]
  let sorted := events.mergeSort fun a b => a.1 ≤ b.1
  (sorted.foldl (fun cm e => (cm.1 + e.2, max cm.2 (cm.1 + e.2))) ((0 : ℤ), (0 : ℤ))).2

/-- Total points on offer: `Σ capacity(s) · points(s)` (part_011 line
598). -/
def totalShiftPoints (shifts : List Shift) : ℚ :=
  (shifts.map fun s => (s.capacity : ℚ) * s.points).sum

/-- Minimum points the volunteer pool must absorb:
`Σ max(0, minPoints − preAssignedPoints)` (part_011 line 599). -/
def minPointsNeeded (vols : List Volunteer) (settings : Settings) : ℚ :=
  (vols.map fun v => max 0 (settings.minPoints - v.preAssignedPoints)).sum

/-- Maximum points the volunteer pool can absorb:
`Σ (max(0, minPoints − preAssignedPoints) + maxOver)` (part_011 line
600). -/
def maxPointsAllowed (vols : List Volunteer) (settings : Settings) : ℚ :=
  (vols.map fun v => max 0 (settings.minPoints - v.preAssignedPoints) + settings.maxOver).sum

/-- Shifts a volunteer ranks within the top `guaranteeLevel` (part_011
lines 647-649). -/
def eligibleTopN (guaranteeLevel : ℕ) (v : Volunteer) : List String :=
  (v.preferences.filter fun p => p.2 ≤ guaranteeLevel).map (·.1)

/-- Total capacity of the shifts a volunteer ranks within the top
`guaranteeLevel` (part_011 lines 655-658; unknown shift ids count 0). -/
def eligibleTopCapacity (shifts : List Shift) (guaranteeLevel : ℕ) (v : Volunteer) : ℕ :=
  ((eligibleTopN guaranteeLevel v).map fun sId =>
    ((shiftById shifts sId).map (·.capacity)).getD 0).sum

/-- Count of volunteers with no shift ranked within the top
`guaranteeLevel` (part_011 lines 651-652). -/
def noEligCount (vols : List Volunteer) (guaranteeLevel : ℕ) : ℕ :=
  vols.countP fun v => (eligibleTopN guaranteeLevel v).isEmpty

/-- Count of volunteers the source flags as having "very limited
options": at least one top-`guaranteeLevel` shift but total eligible
capacity strictly below 2 (part_011 lines 653-661:
`if (eligibleCapacity < 2) volunteersWithFewOptions++`). -/
def fewOptionsCount (shifts : List Shift) (vols : List Volunteer) (guaranteeLevel : ℕ) : ℕ :=
  vols.countP fun v =>
    !(eligibleTopN guaranteeLevel v).isEmpty &&
      decide (eligibleTopCapacity shifts guaranteeLevel v < 2)

/-- The issue list emitted by `diagnoseInfeasibility` (part_011 lines
580-693), keeping the issue types in push order and eliding the prose. -/
def diagnoseInfeasibility (shifts : List Shift) (vols : List Volunteer)
    (settings : Settings) : List IssueType :=
  (if vols.length * settings.maxShifts < (shifts.map (·.capacity)).sum then
    [IssueType.capacityExcess] else [])
  ++ (if totalShiftPoints shifts < minPointsNeeded vols settings then
    [IssueType.pointsShortage] else [])
  ++ (if maxPointsAllowed vols settings * (3 / 2) < totalShiftPoints shifts then
    [IssueType.pointsExcess] else [])
  ++ (if (vols.length : ℤ) < maxConcurrentCapacity shifts then
    [IssueType.concurrentOverlap] else [])
  ++ (if settings.forbidBackToBack = true ∧
        0 < (sequentialPairs shifts settings.backToBackGap).length ∧
        (2 : ℚ) < 2 * ((sequentialPairs shifts settings.backToBackGap).length : ℚ) /
          (shifts.length : ℚ) then
    [IssueType.backToBackTight] else [])
  ++ (if 0 < settings.guaranteeLevel then
      (if 0 < noEligCount vols settings.guaranteeLevel then
        [IssueType.guaranteeImpossible] else [])
      ++ (if 5 < fewOptionsCount shifts vols settings.guaranteeLevel then
        [IssueType.guaranteeBottleneck] else [])
    else [])

/-- Count used by claim C7's trigger as stated: volunteers with at least
one top-`guaranteeLevel` shift and total eligible capacity at most 2.
Modelled from the spec's words ("> 5 volunteers have ≤ 2 total capacity
in their top-`guarantee_level`") for comparison with the source's
`fewOptionsCount`. -/
def claimBottleneckCount (shifts : List Shift) (vols : List Volunteer)
    (guaranteeLevel : ℕ) : ℕ :=
  vols.countP fun v =>
    !(eligibleTopN guaranteeLevel v).isEmpty &&
      decide (eligibleTopCapacity shifts guaranteeLevel v ≤ 2)

/-! ### Matching oracle (`feasibilityChecker.ts`)

`checkMatchingFeasibility` runs a DFS augmenting-path search per
volunteer.  The two JS `Map`s `matching` (volunteer → shift) and
`reverseMatching` (shift → volunteers, with the `|| []` default) are
embedded as a state record of total functions; the per-volunteer
`visited` set of shifts as a list.  The source recursion terminates
because `visited` grows on every nested call; the embedding carries a
structural fuel, and every theorem is proved with the fuel the top-level
entry point supplies, shown sufficient by the visited-set bound. -/

/-- The matching state: `matching` is the volunteer → shift map,
`rev` the shift → assigned-volunteers map (`reverseMatching`). -/
structure MatchSt where
  matching : String → Option String
  rev : String → List String

/-- The adjacency built by `checkMatchingFeasibility` (lines 27-35): the
shift ids a volunteer ranks at most `maxRank`, in preference-map
insertion order. -/
def volunteerEligible (maxRank : ℕ) (v : Volunteer) : List String :=
  (v.preferences.filter fun p => p.2 ≤ maxRank).map (·.1)

/-- The `volunteerToShifts` map (lines 26-35) with the `|| []` default of
`findAugmentingPath` line 83. -/
def volunteerToShifts (vols : List Volunteer) (maxRank : ℕ) : String → List String :=
  vols.foldl (fun m v => Function.update m v.name (volunteerEligible maxRank v)) fun _ => []

/-- The `shiftCapacity` map (lines 38-41) with the `|| 0` default of
`findAugmentingPath` line 89. -/
def shiftCapacityMap (shifts : List Shift) : String → ℕ :=
  shifts.foldl (fun m s => Function.update m s.id s.capacity) fun _ => 0

/-- The `for (const matchedVol of currentlyMatched)` loop of
`findAugmentingPath` (lines 100-109): recursively reroute a matched
volunteer (the nested `findAugmentingPath` call is passed in as
`recur`); on success take over its slot
(`currentlyMatched.filter(v => v !== matchedVol)` plus the new
volunteer). -/
def rerouteGo (recur : String → MatchSt → List String → Bool × MatchSt × List String)
    (v s : String) (cur : List String) :
    List String → MatchSt → List String → Bool × MatchSt × List String
  | [], st, vis => (false, st, vis)
  | u :: rest, st, vis =>
    match recur u st vis with
    | (true, st2, vis2) =>
      (true,
        ⟨Function.update st2.matching v (some s),
          Function.update st2.rev s ((cur.filter fun w => w ≠ u) ++ [v])⟩,
        vis2)
    | (false, st2, vis2) => rerouteGo recur v s cur rest st2 vis2

/-- The `for (const shiftId of eligibleShifts)` loop of
`findAugmentingPath` (lines 85-110): skip visited shifts, mark the shift
visited, match directly when the shift has spare capacity, otherwise try
to reroute one of its currently matched volunteers.  The source's local
names (`visited` after `add`, `currentlyMatched`) are inlined as
`s :: vis` and `st.rev s`; the nested `findAugmentingPath` call is the
parameter `recur`. -/
def shiftGo (cap : String → ℕ)
    (recur : String → MatchSt → List String → Bool × MatchSt × List String)
    (v : String) :
    List String → MatchSt → List String → Bool × MatchSt × List String
  | [], st, vis => (false, st, vis)
  | s :: rest, st, vis =>
    if s ∈ vis then shiftGo cap recur v rest st vis
    else
      if (st.rev s).length < cap s then
        (true,
          ⟨Function.update st.matching v (some s),
            Function.update st.rev s (st.rev s ++ [v])⟩,
          s :: vis)
      else
        match rerouteGo recur v s (st.rev s) (st.rev s) st (s :: vis) with
        | (true, st2, vis2) => (true, st2, vis2)
        | (false, st2, vis2) => shiftGo cap recur v rest st2 vis2

/-- `findAugmentingPath` (lines 75-113): try every eligible shift of the
volunteer in order.  The source recursion terminates because `visited`
grows on every nested call; the embedding spends one unit of structural
fuel per nesting level, and the fuel `checkMatchingFeasibility` supplies
makes the zero case unreachable. -/
def findAug (adj : String → List String) (cap : String → ℕ) :
    ℕ → String → MatchSt → List String → Bool × MatchSt × List String
  | 0, _, st, vis => (false, st, vis)
  | fuel + 1, v, st, vis => shiftGo cap (findAug adj cap fuel) v (adj v) st vis

/-- The per-volunteer outer loop of `checkMatchingFeasibility` (lines
49-54): a fresh `visited` set per volunteer; the boolean result is
discarded. -/
def matchAll (adj : String → List String) (cap : String → ℕ) (fuel : ℕ) :
    List String → MatchSt → MatchSt
  | [], st => st
  | v :: rest, st => matchAll adj cap fuel rest (findAug adj cap fuel v st []).2.1

/-- Result record of `checkMatchingFeasibility` (lines 10-14). -/
structure MatchingResult where
  feasible : Bool
  matching : String → Option String
  unmatchedVolunteers : List String

/-- Fuel for the DFS: one more than the number of distinct shift ids any
volunteer is eligible for (every nested call strictly grows the visited
set, which stays inside this universe). -/
def eligUniverse (vols : List Volunteer) (maxRank : ℕ) : List String :=
  ((vols.map (volunteerEligible maxRank)).flatten).dedup

/-- `checkMatchingFeasibility` (lines 20-69): match every volunteer in
input order by augmenting paths, then report the volunteers left
unmatched; `feasible` is `unmatchedVolunteers.length === 0`. -/
def checkMatchingFeasibility (vols : List Volunteer) (shifts : List Shift)
    (maxRank : ℕ) : MatchingResult :=
  let adj := volunteerToShifts vols maxRank
  let cap := shiftCapacityMap shifts
  let st := matchAll adj cap ((eligUniverse vols maxRank).length + 1)
    (vols.map (·.name)) ⟨fun _ => none, fun _ => []⟩
  let unmatched := (vols.filter fun v => (st.matching v.name).isNone).map (·.name)
  ⟨unmatched.isEmpty, st.matching, unmatched⟩

/-- Largest rank appearing in any volunteer's preferences
(`detectMinimumGuarantee` lines 127-133). -/
def maxPrefRank (vols : List Volunteer) : ℕ :=
  vols.foldl (fun m v => v.preferences.foldl (fun m p => if m < p.2 then p.2 else m) m) 0

/-- The scan loop of `detectMinimumGuarantee` (lines 135-146):
`remaining` counts the levels left to try (`B - level + 1` for loop
bound `B`), `acc` accumulates the `unmatchedAt` map in insertion
order. -/
def guaranteeScan (vols : List Volunteer) (shifts : List Shift) :
    ℕ → ℕ → List (ℕ × List String) → ℕ × List (ℕ × List String)
  | 0, _, acc => (0, acc)
  | remaining + 1, level, acc =>
    let result := checkMatchingFeasibility vols shifts level
    let acc1 := acc ++ [(level, result.unmatchedVolunteers)]
    if result.feasible then (level, acc1)
    else guaranteeScan vols shifts remaining (level + 1) acc1

/-- `detectMinimumGuarantee` (lines 121-147): scan levels
`1, 2, …, max(maxPrefRank, 10)`, recording unmatched volunteers at each
attempted level, and return the first feasible level, or 0 when none
is. -/
def detectMinimumGuarantee (vols : List Volunteer) (shifts : List Shift) :
    ℕ × List (ℕ × List String) :=
  guaranteeScan vols shifts (max (maxPrefRank vols) 10) 1 []

/-- Range record of `DetectedSettings` (`feasibilityChecker.ts` lines
175-185). -/
structure SettingsRange where
  min : ℚ
  max : ℚ
  recommended : ℚ
  deriving DecidableEq, Repr

/-- `DetectedSettings` (`feasibilityChecker.ts` lines 175-185). -/
structure DetectedSettings where
  minPoints : ℚ
  maxOver : ℚ
  maxShifts : ℚ
  guaranteeLevel : ℕ
  minPointsRange : SettingsRange
  maxOverRange : SettingsRange
  maxShiftsRange : SettingsRange
  deriving DecidableEq, Repr

/-- The fixed defaults `detectOptimalSettings` returns for an empty
volunteer or shift list (lines 191-201). -/
def defaultDetectedSettings : DetectedSettings :=
  { minPoints := 6, maxOver := 2, maxShifts := 10, guaranteeLevel := 0,
    minPointsRange := ⟨0, 10, 6⟩, maxOverRange := ⟨0, 5, 2⟩,
    maxShiftsRange := ⟨1, 20, 10⟩ }

/-- `detectOptimalSettings` (lines 187-278), parameterised by the
matching-oracle call `detectGuarantee` (the source calls
`detectMinimumGuarantee` and keeps its `level`).  The source's `number`
arithmetic on points and averages is embedded over `ℚ`; `Math.floor` /
`Math.ceil` are `⌊·⌋` / `⌈·⌉`.  (In the guarded branches the divisors
`numVolunteers` and, for data with positive point values,
`minShiftPoints` are nonzero; the JS `Infinity` corner for all-zero
point values is outside every claim about this function.) -/
def detectOptimalSettingsWith
    (detectGuarantee : List Volunteer → List Shift → ℕ)
    (vols : List Volunteer) (shifts : List Shift) : DetectedSettings :=
  if vols.length = 0 ∨ shifts.length = 0 then defaultDetectedSettings
  else
    let totalAvailablePoints : ℚ := (shifts.map fun s => s.points * (s.capacity : ℚ)).sum
    let numVolunteers : ℚ := vols.length
    let fairShare := totalAvailablePoints / numVolunteers
    let shiftPoints := shifts.map (·.points)
    let minShiftPoints : ℚ := shiftPoints.foldl min (shiftPoints.headD 0)
    let maxShiftPoints : ℚ := shiftPoints.foldl max (shiftPoints.headD 0)
    let totalCapacity : ℚ := ((shifts.map (·.capacity)).sum : ℕ)
    let avgShiftsPerPerson := totalCapacity / numVolunteers
    let conservativeFairShare := fairShare * (85 / 100)
    let recommendedMinPoints : ℚ := (⌊conservativeFairShare * 2⌋ : ℤ) / 2
    let minPointsMin : ℚ := 0
    let minPointsMax : ℚ := (⌊fairShare⌋ : ℤ)
    let recommendedMaxOver : ℚ := 3 / 2
    let slack := totalAvailablePoints - numVolunteers * recommendedMinPoints
    let slackPerPerson := slack / numVolunteers
    let maxOverMin : ℚ := 0
    let maxOverMax : ℚ := max ((⌈slackPerPerson * 3⌉ : ℤ) : ℚ) (maxShiftPoints * 3)
    let maxPointsPerPerson := recommendedMinPoints + recommendedMaxOver
    let shiftsNeededForMax : ℚ := (⌈maxPointsPerPerson / minShiftPoints⌉ : ℤ)
    let recommendedMaxShifts : ℚ :=
      max (max (((⌈avgShiftsPerPerson⌉ : ℤ) : ℚ) + 3) (shiftsNeededForMax + 2))
        (((⌈(shifts.length : ℚ) / numVolunteers⌉ : ℤ) : ℚ) + 3)
    let maxShiftsMin : ℚ := (⌈recommendedMinPoints / maxShiftPoints⌉ : ℤ)
    let maxShiftsMax : ℚ :=
      min (shifts.length : ℚ) (max (recommendedMaxShifts + 5) ((⌈avgShiftsPerPerson * 3⌉ : ℤ) : ℚ))
    let minimumFeasible := detectGuarantee vols shifts
    let guaranteeLevel := if minimumFeasible = 0 then 0 else max minimumFeasible 5
    { minPoints := recommendedMinPoints, maxOver := recommendedMaxOver,
      maxShifts := recommendedMaxShifts, guaranteeLevel := guaranteeLevel,
      minPointsRange := ⟨minPointsMin, minPointsMax, recommendedMinPoints⟩,
      maxOverRange := ⟨maxOverMin, maxOverMax, recommendedMaxOver⟩,
      maxShiftsRange := ⟨maxShiftsMin, maxShiftsMax, recommendedMaxShifts⟩ }

/-- `detectOptimalSettings` as the source composes it (line 251 calls
`detectMinimumGuarantee`). -/
def detectOptimalSettings (vols : List Volunteer) (shifts : List Shift) :
    DetectedSettings :=
  detectOptimalSettingsWith (fun v s => (detectMinimumGuarantee v s).1) vols shifts

/-! ### Correctness of the augmenting-path search

The lemmas below analyse `findAug` / `shiftGo` / `rerouteGo` over an
abstract adjacency `adj`, capacity map `cap`, volunteer-name list
`volNames` and shift-id universe `U` (every adjacency list lives inside
`U`).  `Inv` is the state invariant maintained by the search; on success
the state is the old matching re-routed plus the new volunteer (`InvX`
tracks the one temporarily stale reverse-map entry of the volunteer
being re-routed); on failure the state is unchanged and the visited set
closes off a deficiency certificate (`Obl`), from which
`no_assignment_of_failure` derives that no capacity-respecting full
assignment along `adj` exists at all. -/

section MatchingProof

variable (adj : String → List String) (cap : String → ℕ)
variable (volNames : List String) (U : List String)

/-- State invariant of the matching search: the forward and reverse maps
agree, reverse lists are duplicate-free and within capacity, matches are
along the adjacency, and matched keys are volunteer names. -/
abbrev Inv (st : MatchSt) : Prop :=
  (∀ u s, st.matching u = some s ↔ u ∈ st.rev s) ∧
  (∀ s, (st.rev s).Nodup) ∧
  (∀ s, (st.rev s).length ≤ cap s) ∧
  (∀ u s, st.matching u = some s → s ∈ adj u) ∧
  (∀ u, (st.matching u).isSome = true → u ∈ volNames)

/-- Invariant of a successful search, relative to the augmenting
volunteer `v`: as `Inv`, except that `v` may still sit in the reverse
list of its pre-search shift `old` (the caller removes it). -/
abbrev InvX (st : MatchSt) (v : String) (old : Option String) : Prop :=
  (∀ u s, u ∈ st.rev s → st.matching u = some s ∨ (u = v ∧ old = some s)) ∧
  (∀ u s, st.matching u = some s → u ∈ st.rev s) ∧
  (∀ s, (st.rev s).Nodup) ∧
  (∀ s, (st.rev s).length ≤ cap s) ∧
  (∀ u s, st.matching u = some s → s ∈ adj u) ∧
  (∀ u, (st.matching u).isSome = true → u ∈ volNames)

/-- A stale-free `InvX` is the plain invariant. -/
theorem inv_of_invX {st : MatchSt} {v : String}
    (h : InvX adj cap volNames st v none) : Inv adj cap volNames st := by
  obtain ⟨h1, h2, h3, h4, h5, h6⟩ := h
  refine ⟨fun u s => ⟨h2 u s, fun hm => ?_⟩, h3, h4, h5, h6⟩
  rcases h1 u s hm with h | ⟨_, h⟩
  · exact h
  · cases h

/-- Visited-set bookkeeping: no duplicates and inside the universe. -/
abbrev VisOK (vis : List String) : Prop :=
  vis.Nodup ∧ ∀ t ∈ vis, t ∈ U

/-- Failure certificate: every shift the failed search visited beyond
its entry set is full, and everything matched there is eligible only for
visited shifts. -/
abbrev Obl (st : MatchSt) (vis vis' : List String) : Prop :=
  ∀ t ∈ vis', t ∈ vis ∨
    (cap t ≤ (st.rev t).length ∧ ∀ u ∈ st.rev t, ∀ s ∈ adj u, s ∈ vis')

/-- Common failure postcondition: state unchanged, visited grown and
still well-formed, and the certificate holds. -/
abbrev FailPost (st st' : MatchSt) (vis vis' : List String) : Prop :=
  st' = st ∧ (∀ t ∈ vis, t ∈ vis') ∧ VisOK U vis' ∧ Obl adj cap st vis vis'

/-- Common success postcondition relative to the augmenting volunteer
`v`: reverse lists of previously visited shifts (except a designated
shift `ex` being taken over) are untouched, matchedness of everyone else
is preserved, and the stale-aware invariant holds. -/
abbrev SuccPost (v : String) (ex : Option String) (st st' : MatchSt)
    (vis : List String) : Prop :=
  (∀ t ∈ vis, some t ≠ ex → st'.rev t = st.rev t) ∧
  (∀ u, u ≠ v → (st'.matching u).isSome = (st.matching u).isSome) ∧
  InvX adj cap volNames st' v (st.matching v)

/-- Preconditions shared by the entry points: the invariant, the
volunteer is known, its current shift (if any) is already visited, and
the visited set is well-formed. -/
abbrev PreCommon (v : String) (st : MatchSt) (vis : List String) : Prop :=
  Inv adj cap volNames st ∧ v ∈ volNames ∧
    (∀ s₀, st.matching v = some s₀ → s₀ ∈ vis) ∧ VisOK U vis

/-- Specification of `findAug` at a given fuel. -/
def StmtA (fuel : ℕ) : Prop :=
  ∀ (v : String) (st : MatchSt) (vis : List String) (b : Bool)
    (st' : MatchSt) (vis' : List String),
    findAug adj cap fuel v st vis = (b, st', vis') →
    PreCommon adj cap volNames U v st vis →
    U.length + 1 ≤ fuel + vis.length →
    (b = true → SuccPost adj cap volNames v none st st' vis ∧
      ∃ s', st'.matching v = some s' ∧ s' ∉ vis) ∧
    (b = false → FailPost adj cap U st st' vis vis' ∧ ∀ s ∈ adj v, s ∈ vis')

/-- Specification of the eligible-shift loop `shiftGo` at a given fuel. -/
def StmtB (fuel : ℕ) : Prop :=
  ∀ (v : String) (l : List String) (st : MatchSt) (vis : List String) (b : Bool)
    (st' : MatchSt) (vis' : List String),
    shiftGo cap (findAug adj cap fuel) v l st vis = (b, st', vis') →
    PreCommon adj cap volNames U v st vis →
    (∀ s ∈ l, s ∈ adj v) →
    U.length + 1 ≤ fuel + 1 + vis.length →
    (b = true → SuccPost adj cap volNames v none st st' vis ∧
      ∃ s', st'.matching v = some s' ∧ s' ∉ vis) ∧
    (b = false → FailPost adj cap U st st' vis vis' ∧ ∀ s ∈ l, s ∈ vis')

/-- Specification of the reroute loop `rerouteGo` at a given fuel. -/
def StmtC (fuel : ℕ) : Prop :=
  ∀ (v s : String) (cur m : List String) (st : MatchSt) (vis : List String)
    (b : Bool) (st' : MatchSt) (vis' : List String),
    rerouteGo (findAug adj cap fuel) v s cur m st vis = (b, st', vis') →
    PreCommon adj cap volNames U v st vis →
    s ∈ vis → cur = st.rev s → (∀ u ∈ m, u ∈ st.rev s) → s ∈ adj v →
    (∀ s₀, st.matching v = some s₀ → s₀ ≠ s) →
    U.length + 1 ≤ fuel + vis.length →
    (b = true → SuccPost adj cap volNames v (some s) st st' vis ∧
      st'.matching v = some s) ∧
    (b = false → FailPost adj cap U st st' vis vis' ∧
      ∀ u ∈ m, ∀ t ∈ adj u, t ∈ vis')

end MatchingProof

/-- Helper: a well-formed visited set is no longer than the universe. -/
theorem visOK_length_le {U vis : List String} (hUN : U.Nodup) (h : VisOK U vis) :
    vis.length ≤ U.length :=
  (h.1.subperm fun _ hx => h.2 _ hx).length_le

/-- Helper: removing one present element by filtering shortens a list. -/
theorem filter_ne_succ_length {l : List String} {a : String} (h : a ∈ l) :
    (l.filter fun x => x ≠ a).length + 1 ≤ l.length := by
  induction l with
  | nil => cases h
  | cons b t ih =>
    by_cases hb : b = a
    · have hd : (decide (b ≠ a)) = false := by simp [hb]
      simp only [List.filter_cons, hd, Bool.false_eq_true, if_false, List.length_cons]
      exact Nat.succ_le_succ (List.length_filter_le _ t)
    · have hd : (decide (b ≠ a)) = true := by simp [hb]
      simp only [List.filter_cons, hd, if_true, List.length_cons]
      have hmem : a ∈ t := by
        rcases List.mem_cons.mp h with h1 | h1
        · exact absurd h1.symm hb
        · exact h1
      exact Nat.succ_le_succ (ih hmem)

/-- Helper: at fuel zero the preconditions are contradictory (the
visited set would have to exceed the universe). -/
theorem stmtA_zero (adj : String → List String) (cap : String → ℕ)
    (volNames U : List String) (hUN : U.Nodup) :
    StmtA adj cap volNames U 0 := by
  intro v st vis b st' vis' _ hpre hfuel
  have hlen : vis.length ≤ U.length := visOK_length_le hUN hpre.2.2.2
  exact absurd hfuel (by omega)

/-- Helper: `findAug` at positive fuel is the shift loop over the
volunteer's adjacency. -/
theorem stmtA_succ (adj : String → List String) (cap : String → ℕ)
    (volNames U : List String) (g : ℕ) (hB : StmtB adj cap volNames U g) :
    StmtA adj cap volNames U (g + 1) := by
  intro v st vis b st' vis' heq hpre hfuel
  have heq' : shiftGo cap (findAug adj cap g) v (adj v) st vis = (b, st', vis') := heq
  exact hB v (adj v) st vis b st' vis' heq' hpre (fun _ hs => hs) (by omega)

/-- Helper: transitivity of the failure certificate. -/
theorem obl_trans {adj : String → List String} {cap : String → ℕ}
    {st : MatchSt} {vis1 vis2 vis3 : List String}
    (h12 : Obl adj cap st vis1 vis2) (h23 : Obl adj cap st vis2 vis3)
    (hsub : ∀ t ∈ vis2, t ∈ vis3) : Obl adj cap st vis1 vis3 := by
  intro t ht3
  rcases h23 t ht3 with ht2 | hc
  · rcases h12 t ht2 with ht1 | hc2
    · exact Or.inl ht1
    · exact Or.inr ⟨hc2.1, fun u hu s hs => hsub _ (hc2.2 u hu s hs)⟩
  · exact Or.inr hc

/-- Helper: correctness of the reroute loop, given correctness of the
nested `findAug` at the same fuel. -/
theorem stmtC_of_A (adj : String → List String) (cap : String → ℕ)
    (volNames U : List String) (fuel : ℕ)
    (hA : StmtA adj cap volNames U fuel) : StmtC adj cap volNames U fuel := by
  intro v s cur m
  induction m with
  | nil =>
    intro st vis b st' vis' heq hpre _ _ _ _ _ _
    rw [rerouteGo] at heq
    injection heq with h1 h2
    injection h2 with h2 h3
    subst h1; subst h2; subst h3
    refine ⟨(fun h => nomatch h), fun _ => ?_⟩
    exact ⟨⟨rfl, fun t ht => ht, hpre.2.2.2, fun t ht => Or.inl ht⟩,
      fun u hu => nomatch hu⟩
  | cons u rest ih =>
    intro st vis b st' vis' heq hpre hs hcur hm hsadj hne hfuel
    obtain ⟨hInv, hv, hP5, hVis⟩ := hpre
    obtain ⟨hIm, hInd, hIcap, hIel, hIdom⟩ := hInv
    have hmu : st.matching u = some s := (hIm u s).mpr (hm u (List.mem_cons_self u rest))
    have hvu : v ≠ u := by
      intro h
      exact hne s (by rw [h]; exact hmu) rfl
    have hpreu : PreCommon adj cap volNames U u st vis := by
      refine ⟨⟨hIm, hInd, hIcap, hIel, hIdom⟩, hIdom u (by rw [hmu]; rfl), ?_, hVis⟩
      intro s₀ h₀
      rw [hmu] at h₀
      injection h₀ with h₀
      rw [← h₀]; exact hs
    rw [rerouteGo] at heq
    rcases hfind : findAug adj cap fuel u st vis with ⟨bu, st2, vis2⟩
    rw [hfind] at heq
    cases bu with
    | true =>
      simp only at heq
      injection heq with h1 h2
      injection h2 with h2 h3
      subst h1; subst h2; subst h3
      obtain ⟨⟨hrevp, hmatp, hX⟩, su, hsu, hsuvis⟩ :=
        (hA u st vis true st2 vis2 hfind hpreu hfuel).1 rfl
      obtain ⟨X1, X2, X3, X4, X5, X6⟩ := hX
      have hrev2s : st2.rev s = st.rev s := hrevp s hs (by simp)
      have hsus : su ≠ s := fun h => hsuvis (h ▸ hs)
      have hvcur : v ∉ cur := by
        intro hvc
        rw [hcur] at hvc
        exact hne s ((hIm v s).mpr hvc) rfl
      have hucur : u ∈ cur := by
        rw [hcur]; exact hm u (List.mem_cons_self u rest)
      refine ⟨fun _ => ?_, (fun h => nomatch h)⟩
      have hgoalM : ∀ w : String,
          (⟨Function.update st2.matching v (some s),
            Function.update st2.rev s ((cur.filter fun w => w ≠ u) ++ [v])⟩ :
              MatchSt).matching w
            = Function.update st2.matching v (some s) w := fun _ => rfl
      have hgoalR : ∀ t : String,
          (⟨Function.update st2.matching v (some s),
            Function.update st2.rev s ((cur.filter fun w => w ≠ u) ++ [v])⟩ :
              MatchSt).rev t
            = Function.update st2.rev s ((cur.filter fun w => w ≠ u) ++ [v]) t :=
        fun _ => rfl
      refine ⟨⟨?_, ?_, ?_, ?_, ?_, ?_, ?_, ?_⟩, ?_⟩
      · -- untouched reverse lists
        intro t ht htne
        have hts : t ≠ s := fun h => htne (by rw [h])
        rw [hgoalR, Function.update_noteq hts]
        exact hrevp t ht (by simp)
      · -- matchedness of others preserved
        intro w hw
        rw [hgoalM, Function.update_noteq hw]
        by_cases hwu : w = u
        · rw [hwu, hsu, hmu]; rfl
        · exact hmatp w hwu
      · -- InvX, forward membership
        intro w t hwt
        rw [hgoalR] at hwt
        by_cases hts : t = s
        · subst hts
          rw [Function.update_same] at hwt
          rcases List.mem_append.mp hwt with hwf | hwv
          · have hwc : w ∈ cur ∧ w ≠ u := by simpa using List.mem_filter.mp hwf
            have hwv : w ≠ v := fun h => hvcur (h ▸ hwc.1)
            have hw2 : w ∈ st2.rev t := by
              rw [hrev2s, ← hcur]; exact hwc.1
            rcases X1 w t hw2 with hmw | ⟨hwu, _⟩
            · left
              rw [hgoalM, Function.update_noteq hwv]; exact hmw
            · exact absurd hwu hwc.2
          · have hwv2 : w = v := by simpa using hwv
            subst hwv2
            left
            rw [hgoalM]
            exact Function.update_same w (some t) st2.matching
        · rw [Function.update_noteq hts] at hwt
          rcases X1 w t hwt with hmw | ⟨hwu, hold⟩
          · by_cases hwv : w = v
            · subst hwv
              cases hmv : st.matching w with
              | none =>
                have hpres := hmatp w hvu
                rw [hmw, hmv] at hpres
                cases hpres
              | some s₀ =>
                have hvrev : w ∈ st.rev s₀ := (hIm w s₀).mp hmv
                have hv2 : w ∈ st2.rev s₀ := by
                  rw [hrevp s₀ (hP5 s₀ hmv) (by simp)]; exact hvrev
                rcases X1 w s₀ hv2 with hm2 | ⟨hvu2, _⟩
                · rw [hmw] at hm2
                  injection hm2 with hm2
                  right
                  exact ⟨rfl, congrArg some hm2.symm⟩
                · exact absurd hvu2 hvu
            · left
              rw [hgoalM, Function.update_noteq hwv]; exact hmw
          · rw [hmu] at hold
            injection hold with hold
            exact absurd hold.symm hts
      · -- InvX, backward membership
        intro w t hmt
        rw [hgoalM] at hmt
        rw [hgoalR]
        by_cases hwv : w = v
        · subst hwv
          rw [Function.update_same] at hmt
          injection hmt with hmt
          subst hmt
          rw [Function.update_same]
          exact List.mem_append.mpr (Or.inr (List.mem_singleton.mpr rfl))
        · rw [Function.update_noteq hwv] at hmt
          have hw2 : w ∈ st2.rev t := X2 w t hmt
          by_cases hts : t = s
          · subst hts
            have hwu : w ≠ u := by
              intro h
              rw [h, hsu] at hmt
              injection hmt with hmt
              exact hsus hmt
            rw [Function.update_same]
            refine List.mem_append.mpr (Or.inl ?_)
            rw [hrev2s, ← hcur] at hw2
            exact List.mem_filter.mpr (by simpa using ⟨hw2, hwu⟩)
          · rw [Function.update_noteq hts]
            exact hw2
      · -- nodup reverse lists
        intro t
        rw [hgoalR]
        by_cases hts : t = s
        · subst hts
          rw [Function.update_same]
          have hcn : cur.Nodup := by rw [hcur]; exact hInd t
          refine List.nodup_append.mpr ⟨hcn.filter _, List.nodup_singleton v, ?_⟩
          intro w hwf hwv
          rw [List.mem_singleton] at hwv
          subst hwv
          exact hvcur (by simpa using (List.mem_filter.mp hwf).1)
        · rw [Function.update_noteq hts]
          exact X3 t
      · -- capacity bound
        intro t
        rw [hgoalR]
        by_cases hts : t = s
        · subst hts
          rw [Function.update_same, List.length_append, List.length_singleton]
          calc (cur.filter fun w => w ≠ u).length + 1 ≤ cur.length :=
              filter_ne_succ_length hucur
            _ ≤ cap t := by rw [hcur]; exact hIcap t
        · rw [Function.update_noteq hts]
          exact X4 t
      · -- eligibility
        intro w t hmt
        rw [hgoalM] at hmt
        by_cases hwv : w = v
        · subst hwv
          rw [Function.update_same] at hmt
          injection hmt with hmt
          rw [← hmt]
          exact hsadj
        · rw [Function.update_noteq hwv] at hmt
          exact X5 w t hmt
      · -- domain
        intro w hw
        rw [hgoalM] at hw
        by_cases hwv : w = v
        · subst hwv; exact hv
        · rw [Function.update_noteq hwv] at hw
          exact X6 w hw
      · -- the augmenting volunteer now sits on the contested shift
        rw [hgoalM]
        exact Function.update_same v (some s) st2.matching
    | false =>
      simp only at heq
      obtain ⟨⟨hst2, hvissub, hvisok2, hobl⟩, hadju⟩ :=
        (hA u st vis false st2 vis2 hfind hpreu hfuel).2 rfl
      have hst2s : st = st2 := hst2.symm
      subst hst2s
      have hlen2 : vis.length ≤ vis2.length := (hVis.1.subperm hvissub).length_le
      have hih := ih st vis2 b st' vis' heq
        ⟨⟨hIm, hInd, hIcap, hIel, hIdom⟩, hv,
          fun s₀ h₀ => hvissub _ (hP5 s₀ h₀), hvisok2⟩
        (hvissub s hs) hcur (fun u' hu' => hm u' (List.mem_cons_of_mem u hu'))
        hsadj hne (by omega)
      constructor
      · intro hb
        obtain ⟨⟨c1, c2, cX⟩, hms⟩ := hih.1 hb
        exact ⟨⟨fun t ht htne => c1 t (hvissub t ht) htne, c2, cX⟩, hms⟩
      · intro hb
        obtain ⟨⟨hst', hsub', hok', hobl'⟩, hrest⟩ := hih.2 hb
        refine ⟨⟨hst', fun t ht => hsub' t (hvissub t ht), hok',
          obl_trans hobl hobl' hsub'⟩, ?_⟩
        intro u' hu' t ht
        rcases List.mem_cons.mp hu' with rfl | hu'
        · exact hsub' t (hadju t ht)
        · exact hrest u' hu' t ht

/-- Helper: correctness of the eligible-shift loop, given correctness of
the reroute loop at the same fuel. -/
theorem stmtB_of_C (adj : String → List String) (cap : String → ℕ)
    (volNames U : List String)
    (hadjU : ∀ name, ∀ t ∈ adj name, t ∈ U) (fuel : ℕ)
    (hC : StmtC adj cap volNames U fuel) : StmtB adj cap volNames U fuel := by
  intro v l
  induction l with
  | nil =>
    intro st vis b st' vis' heq hpre _ _
    rw [shiftGo] at heq
    injection heq with h1 h2
    injection h2 with h2 h3
    subst h1; subst h2; subst h3
    refine ⟨(fun h => nomatch h), fun _ => ?_⟩
    exact ⟨⟨rfl, fun t ht => ht, hpre.2.2.2, fun t ht => Or.inl ht⟩,
      fun t ht => nomatch ht⟩
  | cons s rest ih =>
    intro st vis b st' vis' heq hpre hl hfuel
    obtain ⟨hInv, hv, hP5, hVis⟩ := hpre
    obtain ⟨hIm, hInd, hIcap, hIel, hIdom⟩ := hInv
    have hsl : s ∈ adj v := hl s (List.mem_cons_self s rest)
    rw [shiftGo] at heq
    by_cases hsv : s ∈ vis
    · -- already visited: skip
      rw [if_pos hsv] at heq
      have hih := ih st vis b st' vis' heq
        ⟨⟨hIm, hInd, hIcap, hIel, hIdom⟩, hv, hP5, hVis⟩
        (fun t ht => hl t (List.mem_cons_of_mem s ht)) hfuel
      refine ⟨hih.1, fun hb => ?_⟩
      obtain ⟨hfail, hrest⟩ := hih.2 hb
      refine ⟨hfail, ?_⟩
      intro t ht
      rcases List.mem_cons.mp ht with rfl | ht
      · exact hfail.2.1 t hsv
      · exact hrest t ht
    · rw [if_neg hsv] at heq
      have hvisok1 : VisOK U (s :: vis) :=
        ⟨List.nodup_cons.mpr ⟨hsv, hVis.1⟩,
          fun t ht => by
            rcases List.mem_cons.mp ht with rfl | ht
            · exact hadjU v t hsl
            · exact hVis.2 t ht⟩
      by_cases hcap : (st.rev s).length < cap s
      · -- direct match on spare capacity
        rw [if_pos hcap] at heq
        injection heq with h1 h2
        injection h2 with h2 h3
        subst h1; subst h2; subst h3
        have hvrevs : v ∉ st.rev s := fun h => hsv (hP5 s ((hIm v s).mpr h))
        have hgoalM : ∀ w : String,
            (⟨Function.update st.matching v (some s),
              Function.update st.rev s (st.rev s ++ [v])⟩ : MatchSt).matching w
              = Function.update st.matching v (some s) w := fun _ => rfl
        have hgoalR : ∀ t : String,
            (⟨Function.update st.matching v (some s),
              Function.update st.rev s (st.rev s ++ [v])⟩ : MatchSt).rev t
              = Function.update st.rev s (st.rev s ++ [v]) t := fun _ => rfl
        refine ⟨fun _ => ?_, (fun h => nomatch h)⟩
        refine ⟨⟨?_, ?_, ?_, ?_, ?_, ?_, ?_, ?_⟩,
          s, by rw [hgoalM]; exact Function.update_same v (some s) st.matching, hsv⟩
        · intro t ht _
          have hts : t ≠ s := fun h => hsv (h ▸ ht)
          rw [hgoalR, Function.update_noteq hts]
        · intro w hw
          rw [hgoalM, Function.update_noteq hw]
        · -- forward membership
          intro w t hwt
          rw [hgoalR] at hwt
          by_cases hts : t = s
          · subst hts
            rw [Function.update_same] at hwt
            rcases List.mem_append.mp hwt with hwr | hwv
            · have hwv : w ≠ v := fun h => hvrevs (h ▸ hwr)
              left
              rw [hgoalM, Function.update_noteq hwv]
              exact (hIm w t).mpr hwr
            · have hwv2 : w = v := by simpa using hwv
              subst hwv2
              left
              rw [hgoalM]
              exact Function.update_same w (some t) st.matching
          · rw [Function.update_noteq hts] at hwt
            have hmw : st.matching w = some t := (hIm w t).mpr hwt
            by_cases hwv : w = v
            · subst hwv
              exact Or.inr ⟨rfl, hmw⟩
            · left
              rw [hgoalM, Function.update_noteq hwv]
              exact hmw
        · -- backward membership
          intro w t hmt
          rw [hgoalM] at hmt
          rw [hgoalR]
          by_cases hwv : w = v
          · subst hwv
            rw [Function.update_same] at hmt
            injection hmt with hmt
            subst hmt
            rw [Function.update_same]
            exact List.mem_append.mpr (Or.inr (List.mem_singleton.mpr rfl))
          · rw [Function.update_noteq hwv] at hmt
            have hwr : w ∈ st.rev t := (hIm w t).mp hmt
            by_cases hts : t = s
            · subst hts
              rw [Function.update_same]
              exact List.mem_append.mpr (Or.inl hwr)
            · rw [Function.update_noteq hts]
              exact hwr
        · -- nodup
          intro t
          rw [hgoalR]
          by_cases hts : t = s
          · subst hts
            rw [Function.update_same]
            refine List.nodup_append.mpr ⟨hInd t, List.nodup_singleton v, ?_⟩
            intro w hwr hwv
            rw [List.mem_singleton] at hwv
            subst hwv
            exact hvrevs hwr
          · rw [Function.update_noteq hts]
            exact hInd t
        · -- capacity
          intro t
          rw [hgoalR]
          by_cases hts : t = s
          · subst hts
            rw [Function.update_same, List.length_append, List.length_singleton]
            omega
          · rw [Function.update_noteq hts]
            exact hIcap t
        · -- eligibility
          intro w t hmt
          rw [hgoalM] at hmt
          by_cases hwv : w = v
          · subst hwv
            rw [Function.update_same] at hmt
            injection hmt with hmt
            rw [← hmt]
            exact hsl
          · rw [Function.update_noteq hwv] at hmt
            exact hIel w t hmt
        · -- domain
          intro w hw
          rw [hgoalM] at hw
          by_cases hwv : w = v
          · subst hwv; exact hv
          · rw [Function.update_noteq hwv] at hw
            exact hIdom w hw
      · -- shift full: try to reroute
        rw [if_neg hcap] at heq
        rcases hre : rerouteGo (findAug adj cap fuel) v s (st.rev s) (st.rev s) st (s :: vis)
          with ⟨br, st2, vis2⟩
        rw [hre] at heq
        have hCres := hC v s (st.rev s) (st.rev s) st (s :: vis) br st2 vis2 hre
          ⟨⟨hIm, hInd, hIcap, hIel, hIdom⟩, hv,
            fun s₀ h₀ => List.mem_cons_of_mem s (hP5 s₀ h₀), hvisok1⟩
          (List.mem_cons_self s vis) rfl (fun u hu => hu) hsl
          (fun s₀ h₀ => fun h => hsv (h ▸ hP5 s₀ h₀)) (by simp; omega)
        cases br with
        | true =>
          simp only at heq
          injection heq with h1 h2
          injection h2 with h2 h3
          subst h1; subst h2; subst h3
          obtain ⟨⟨c1, c2, cX⟩, hms⟩ := hCres.1 rfl
          refine ⟨fun _ => ?_, (fun h => nomatch h)⟩
          refine ⟨⟨?_, c2, cX⟩, s, hms, hsv⟩
          intro t ht _
          have hts : t ≠ s := fun h => hsv (h ▸ ht)
          exact c1 t (List.mem_cons_of_mem s ht) (fun h => hts (by injection h))
        | false =>
          simp only at heq
          obtain ⟨⟨hst2, hvissub, hvisok2, hobl⟩, hmcl⟩ := hCres.2 rfl
          have hst2s : st = st2 := hst2.symm
          subst hst2s
          have hlen2 : (s :: vis).length ≤ vis2.length :=
            (hvisok1.1.subperm hvissub).length_le
          have hih := ih st vis2 b st' vis' heq
            ⟨⟨hIm, hInd, hIcap, hIel, hIdom⟩, hv,
              fun s₀ h₀ => hvissub _ (List.mem_cons_of_mem s (hP5 s₀ h₀)), hvisok2⟩
            (fun t ht => hl t (List.mem_cons_of_mem s ht))
            (by simp at hlen2; omega)
          constructor
          · intro hb
            obtain ⟨⟨c1, c2, cX⟩, s', hms', hs'vis⟩ := hih.1 hb
            refine ⟨⟨?_, c2, cX⟩, s', hms',
              fun h => hs'vis (hvissub _ (List.mem_cons_of_mem s h))⟩
            intro t ht htne
            exact c1 t (hvissub t (List.mem_cons_of_mem s ht)) htne
          · intro hb
            obtain ⟨⟨hst', hsub', hok', hobl'⟩, hrest⟩ := hih.2 hb
            refine ⟨⟨hst', fun t ht => hsub' t (hvissub t (List.mem_cons_of_mem s ht)),
              hok', ?_⟩, ?_⟩
            · intro t ht'
              rcases hobl' t ht' with ht2 | hc
              · rcases hobl t ht2 with ht1 | hc2
                · rcases List.mem_cons.mp ht1 with rfl | ht0
                  · refine Or.inr ⟨not_lt.mp hcap, ?_⟩
                    intro u hu t' ht''
                    exact hsub' t' (hmcl u hu t' ht'')
                  · exact Or.inl ht0
                · exact Or.inr ⟨hc2.1, fun u hu t' ht'' => hsub' t' (hc2.2 u hu t' ht'')⟩
              · exact Or.inr hc
            · intro t ht
              rcases List.mem_cons.mp ht with rfl | ht
              · exact hsub' t (hvissub t (List.mem_cons_self t vis))
              · exact hrest t ht

/-- Correctness of the full augmenting-path search, all fuels at once. -/
theorem dfs_spec (adj : String → List String) (cap : String → ℕ)
    (volNames U : List String) (hUN : U.Nodup)
    (hadjU : ∀ name, ∀ t ∈ adj name, t ∈ U) :
    ∀ fuel, StmtA adj cap volNames U fuel ∧ StmtC adj cap volNames U fuel ∧
      StmtB adj cap volNames U fuel := by
  intro fuel
  induction fuel with
  | zero =>
    have hA := stmtA_zero adj cap volNames U hUN
    have hCz := stmtC_of_A adj cap volNames U 0 hA
    exact ⟨hA, hCz, stmtB_of_C adj cap volNames U hadjU 0 hCz⟩
  | succ g ihg =>
    have hA := stmtA_succ adj cap volNames U g ihg.2.2
    have hCs := stmtC_of_A adj cap volNames U (g + 1) hA
    exact ⟨hA, hCs, stmtB_of_C adj cap volNames U hadjU (g + 1) hCs⟩

/-- Abstract form of the matching problem the oracle decides: pick one
adjacent shift per volunteer name so that no shift id is chosen more
often than its capacity. -/
def AbstractAssignment (adj : String → List String) (cap : String → ℕ)
    (volNames : List String) (f : String → String) : Prop :=
  (∀ name ∈ volNames, f name ∈ adj name) ∧
  ∀ t, (volNames.filter fun n => f n = t).length ≤ cap t

/-- Helper: sums of pointwise sums of list maps. -/
theorem sum_map_add {α : Type} (R : List α) (A B : α → ℕ) :
    (R.map fun t => A t + B t).sum = (R.map A).sum + (R.map B).sum := by
  induction R with
  | nil => rfl
  | cons r t ih => simp [ih]; omega

/-- Helper: an indicator summed over a duplicate-free list containing
the element is 1. -/
theorem sum_indicator_of_mem {R : List String} (hR : R.Nodup) {a : String}
    (ha : a ∈ R) : (R.map fun t => if a = t then 1 else 0).sum = 1 := by
  induction R with
  | nil => cases ha
  | cons r t ih =>
    rcases List.mem_cons.mp ha with rfl | hat
    · have hnt : a ∉ t := (List.nodup_cons.mp hR).1
      have : (t.map fun x => if a = x then 1 else 0).sum = 0 := by
        rw [List.sum_eq_zero]
        intro x hx
        obtain ⟨y, hy, hxy⟩ := List.mem_map.mp hx
        rw [← hxy, if_neg]
        rintro rfl
        exact hnt hy
      simp [this]
    · have hra : a ≠ r := fun h => (List.nodup_cons.mp hR).1 (h ▸ hat)
      simp only [List.map_cons, List.sum_cons, if_neg hra,
        ih (List.nodup_cons.mp hR).2 hat]

/-- Helper: a list whose images all land in a duplicate-free bucket list
has length equal to the sum of its bucket sizes. -/
theorem bucket_partition {T R : List String} (g : String → String)
    (hR : R.Nodup) (hT : ∀ x ∈ T, g x ∈ R) :
    T.length = (R.map fun t => (T.filter fun x => g x = t).length).sum := by
  induction T with
  | nil => simp [List.sum_eq_zero]
  | cons x T ih =>
    have hx : g x ∈ R := hT x (List.mem_cons_self x T)
    have hrec := ih fun y hy => hT y (List.mem_cons_of_mem x hy)
    have hsplit : ∀ t : String,
        ((x :: T).filter fun y => g y = t).length =
          (if g x = t then 1 else 0) + (T.filter fun y => g y = t).length := by
      intro t
      by_cases hxt : g x = t
      · have hd : (decide (g x = t)) = true := by simp [hxt]
        simp only [List.filter_cons, hd, if_true, List.length_cons, if_pos hxt]
        omega
      · have hd : (decide (g x = t)) = false := by simp [hxt]
        simp [List.filter_cons, hd, hxt]
    calc (x :: T).length = T.length + 1 := by simp
      _ = (R.map fun t => (T.filter fun y => g y = t).length).sum + 1 := by rw [hrec]
      _ = (R.map fun t => (if g x = t then 1 else 0)).sum +
            (R.map fun t => (T.filter fun y => g y = t).length).sum := by
            rw [sum_indicator_of_mem hR hx]; omega
      _ = (R.map fun t => (if g x = t then 1 else 0) +
            (T.filter fun y => g y = t).length).sum := (sum_map_add R _ _).symm
      _ = (R.map fun t => ((x :: T).filter fun y => g y = t).length).sum := by
            congr 1
            exact (List.map_congr_left fun t _ => (hsplit t).symm)

/-- Helper: filtering respects nodup-subset length comparison. -/
theorem filter_length_le_of_subset {T L : List String} (p : String → Bool)
    (hT : T.Nodup) (hsub : ∀ x ∈ T, x ∈ L) :
    (T.filter p).length ≤ (L.filter p).length :=
  ((hT.subperm fun _ hx => hsub _ hx).filter p).length_le

/-- The deficiency certificate a failed search leaves behind refutes
every capacity-respecting full assignment: the failed volunteer plus
everyone matched into the closed region `R` need strictly more seats in
`R` than its total capacity. -/
theorem no_assignment_of_failure (adj : String → List String) (cap : String → ℕ)
    (volNames : List String) (hVN : volNames.Nodup)
    {st : MatchSt} (hInv : Inv adj cap volNames st) {v : String}
    (hv : v ∈ volNames) (hvun : st.matching v = none)
    {R : List String} (hRN : R.Nodup)
    (hadjv : ∀ t ∈ adj v, t ∈ R)
    (hObl : ∀ t ∈ R, cap t ≤ (st.rev t).length ∧
      ∀ u ∈ st.rev t, ∀ x ∈ adj u, x ∈ R) :
    ¬ ∃ f, AbstractAssignment adj cap volNames f := by
  rintro ⟨f, hfadj, hfcap⟩
  obtain ⟨hIm, hInd, hIcap, hIel, hIdom⟩ := hInv
  set T : List String := v :: R.flatMap st.rev with hT
  have hflatN : (R.flatMap st.rev).Nodup := by
    refine List.nodup_flatMap.mpr ⟨fun t _ => hInd t, ?_⟩
    refine hRN.imp_of_mem ?_
    intro t₁ t₂ _ _ hne u hu₁ hu₂
    exact hne (Option.some.inj (((hIm u t₁).mpr hu₁).symm.trans ((hIm u t₂).mpr hu₂)))
  have hvflat : v ∉ R.flatMap st.rev := by
    intro hvf
    obtain ⟨t, _, hvt⟩ := List.mem_flatMap.mp hvf
    rw [(hIm v t).mpr hvt] at hvun
    cases hvun
  have hTN : T.Nodup := List.nodup_cons.mpr ⟨hvflat, hflatN⟩
  have hTsub : ∀ x ∈ T, x ∈ volNames := by
    intro x hx
    rcases List.mem_cons.mp hx with rfl | hx
    · exact hv
    · obtain ⟨t, _, hxt⟩ := List.mem_flatMap.mp hx
      exact hIdom x (by rw [(hIm x t).mpr hxt]; rfl)
  have hTin : ∀ x ∈ T, f x ∈ R := by
    intro x hx
    rcases List.mem_cons.mp hx with rfl | hx
    · exact hadjv _ (hfadj x hv)
    · obtain ⟨t, ht, hxt⟩ := List.mem_flatMap.mp hx
      exact (hObl t ht).2 x hxt _ (hfadj x (hTsub x (List.mem_cons_of_mem v hx)))
  have hlen1 : T.length = 1 + (R.map fun t => (st.rev t).length).sum := by
    rw [hT, List.length_cons, List.length_flatMap]
    have hmap : List.map (List.length ∘ st.rev) R =
        R.map fun t => (st.rev t).length := rfl
    rw [hmap]
    omega
  have hlen2 : (R.map cap).sum ≤ (R.map fun t => (st.rev t).length).sum :=
    List.sum_le_sum fun t ht => (hObl t ht).1
  have hlen3 : T.length = (R.map fun t => (T.filter fun x => f x = t).length).sum :=
    bucket_partition f hRN hTin
  have hlen4 : (R.map fun t => (T.filter fun x => f x = t).length).sum ≤
      (R.map cap).sum := by
    refine List.sum_le_sum fun t _ => ?_
    calc (T.filter fun x => f x = t).length
        ≤ (volNames.filter fun n => f n = t).length :=
          filter_length_le_of_subset _ hTN hTsub
      _ ≤ cap t := hfcap t
  omega

/-- Correctness of the outer per-volunteer loop: the invariant is
maintained, matched volunteers stay matched, and every processed
volunteer either ends matched or certifies that no full assignment
exists. -/
theorem matchAll_spec (adj : String → List String) (cap : String → ℕ)
    (volNames U : List String) (hVN : volNames.Nodup) (fuel : ℕ)
    (hA : StmtA adj cap volNames U fuel)
    (hfuel : U.length + 1 ≤ fuel) :
    ∀ (names : List String) (st : MatchSt) (processed : List String),
      Inv adj cap volNames st →
      (∀ u, (st.matching u).isSome = true → u ∈ processed) →
      (∀ w ∈ names, w ∈ volNames) →
      (∀ w ∈ names, w ∉ processed) →
      names.Nodup →
      Inv adj cap volNames (matchAll adj cap fuel names st) ∧
      (∀ u, (st.matching u).isSome = true →
        ((matchAll adj cap fuel names st).matching u).isSome = true) ∧
      (∀ w ∈ names, ((matchAll adj cap fuel names st).matching w).isSome = true ∨
        ¬ ∃ f, AbstractAssignment adj cap volNames f) ∧
      (∀ u, ((matchAll adj cap fuel names st).matching u).isSome = true →
        u ∈ processed ++ names) := by
  intro names
  induction names with
  | nil =>
    intro st processed hInv hproc _ _ _
    exact ⟨hInv, fun _ h => h, (fun w hw => nomatch hw),
      (fun u hu => by simpa using hproc u hu)⟩
  | cons v rest ih =>
    intro st processed hInv hproc hsub hnotproc hnodup
    have hvvol : v ∈ volNames := hsub v (List.mem_cons_self v rest)
    have hvnone : st.matching v = none := by
      cases hmv : st.matching v with
      | none => rfl
      | some s =>
        exact absurd (hproc v (by rw [hmv]; rfl))
          (hnotproc v (List.mem_cons_self v rest))
    rcases hfA : findAug adj cap fuel v st [] with ⟨b, st1, vis1⟩
    have hres := hA v st [] b st1 vis1 hfA
      ⟨hInv, hvvol, (fun s₀ h₀ => by rw [hvnone] at h₀; cases h₀),
        ⟨List.nodup_nil, (fun t ht => nomatch ht)⟩⟩
      (by simpa using hfuel)
    have hmAll : matchAll adj cap fuel (v :: rest) st =
        matchAll adj cap fuel rest st1 := by
      rw [matchAll, hfA]
    cases b with
    | true =>
      obtain ⟨⟨_, hpres, hX⟩, _, hms, _⟩ := hres.1 rfl
      rw [hvnone] at hX
      have hInv1 : Inv adj cap volNames st1 := inv_of_invX adj cap volNames hX
      have hproc1 : ∀ u, (st1.matching u).isSome = true → u ∈ v :: processed := by
        intro u hu
        by_cases huv : u = v
        · rw [huv]; exact List.mem_cons_self v processed
        · exact List.mem_cons_of_mem v (hproc u (by rw [← hpres u huv]; exact hu))
      have hrec := ih st1 (v :: processed) hInv1 hproc1
        (fun w hw => hsub w (List.mem_cons_of_mem v hw))
        (fun w hw => by
          intro hwp
          rcases List.mem_cons.mp hwp with rfl | hwp
          · exact (List.nodup_cons.mp hnodup).1 hw
          · exact hnotproc w (List.mem_cons_of_mem v hw) hwp)
        (List.nodup_cons.mp hnodup).2
      rw [hmAll]
      refine ⟨hrec.1, ?_, ?_, ?_⟩
      · intro u hu
        by_cases huv : u = v
        · exact hrec.2.1 u (by rw [huv]; rw [hms]; rfl)
        · exact hrec.2.1 u (by rw [hpres u huv]; exact hu)
      · intro w hw
        rcases List.mem_cons.mp hw with rfl | hw
        · exact Or.inl (hrec.2.1 w (by rw [hms]; rfl))
        · exact hrec.2.2.1 w hw
      · intro u hu
        have := hrec.2.2.2 u hu
        simp only [List.mem_append, List.mem_cons] at this ⊢
        tauto
    | false =>
      obtain ⟨⟨hst1, _, hvisok1, hobl⟩, hadjv⟩ := hres.2 rfl
      have hst1s : st = st1 := hst1.symm
      subst hst1s
      have hNo : ¬ ∃ f, AbstractAssignment adj cap volNames f := by
        refine no_assignment_of_failure adj cap volNames hVN hInv hvvol hvnone
          hvisok1.1 hadjv ?_
        intro t ht
        rcases hobl t ht with ht0 | hc
        · cases ht0
        · exact hc
      have hproc1 : ∀ u, (st.matching u).isSome = true → u ∈ v :: processed :=
        fun u hu => List.mem_cons_of_mem v (hproc u hu)
      have hrec := ih st (v :: processed) hInv hproc1
        (fun w hw => hsub w (List.mem_cons_of_mem v hw))
        (fun w hw => by
          intro hwp
          rcases List.mem_cons.mp hwp with rfl | hwp
          · exact (List.nodup_cons.mp hnodup).1 hw
          · exact hnotproc w (List.mem_cons_of_mem v hw) hwp)
        (List.nodup_cons.mp hnodup).2
      rw [hmAll]
      refine ⟨hrec.1, hrec.2.1, ?_, ?_⟩
      · intro w hw
        rcases List.mem_cons.mp hw with rfl | hw
        · exact Or.inr hNo
        · exact hrec.2.2.1 w hw
      · intro u hu
        have := hrec.2.2.2 u hu
        simp only [List.mem_append, List.mem_cons] at this ⊢
        tauto

/-- Helper: a key never written by a fold of map-insertions keeps its
default value. -/
theorem foldl_update_apply_of_not_mem {α β γ : Type} [DecidableEq α]
    (l : List γ) (key : γ → α) (val : γ → β) :
    ∀ (d : α → β) (a : α), a ∉ l.map key →
      (l.foldl (fun m x => Function.update m (key x) (val x)) d) a = d a := by
  induction l with
  | nil => intro d a _; rfl
  | cons x t ih =>
    intro d a h
    have h1 : a ≠ key x := fun he => h (by simp [he])
    have h2 : a ∉ t.map key := fun hm => h (by simp [hm])
    simp only [List.foldl_cons]
    rw [ih _ a h2, Function.update_noteq h1]

/-- Helper: when keys are pairwise distinct, a fold of map-insertions
looks up each written key to its own value. -/
theorem foldl_update_apply_of_mem {α β γ : Type} [DecidableEq α]
    (l : List γ) (key : γ → α) (val : γ → β) :
    ∀ (d : α → β), (l.map key).Nodup → ∀ x ∈ l,
      (l.foldl (fun m x => Function.update m (key x) (val x)) d) (key x) = val x := by
  induction l with
  | nil => intro d _ x hx; cases hx
  | cons y t ih =>
    intro d hN x hx
    simp only [List.foldl_cons]
    have h2 := hN
    simp only [List.map_cons, List.nodup_cons] at h2
    rcases List.mem_cons.mp hx with rfl | hxt
    · rw [foldl_update_apply_of_not_mem t key val _ _ h2.1, Function.update_same]
    · exact ih _ h2.2 x hxt

/-- Helper: a fold of map-insertions yields either the default or the
value of some written key. -/
theorem foldl_update_apply_cases {α β γ : Type} [DecidableEq α]
    (l : List γ) (key : γ → α) (val : γ → β) :
    ∀ (d : α → β) (a : α),
      (l.foldl (fun m x => Function.update m (key x) (val x)) d) a = d a ∨
      ∃ x ∈ l, key x = a ∧
        (l.foldl (fun m x => Function.update m (key x) (val x)) d) a = val x := by
  induction l with
  | nil => intro d a; exact Or.inl rfl
  | cons y t ih =>
    intro d a
    simp only [List.foldl_cons]
    rcases ih (Function.update d (key y) (val y)) a with h | ⟨x, hx, hk, hv⟩
    · by_cases hya : key y = a
      · right
        refine ⟨y, List.mem_cons_self y t, hya, ?_⟩
        rw [h, ← hya, Function.update_same]
      · left
        rw [h, Function.update_noteq (fun he => hya he.symm)]
    · exact Or.inr ⟨x, List.mem_cons_of_mem y hx, hk, hv⟩

/-- With distinct volunteer names, `volunteerToShifts` looks each
volunteer up to their own eligible-shift list. -/
theorem volunteerToShifts_apply_of_mem (vols : List Volunteer) (n : ℕ)
    (hVN : (vols.map (·.name)).Nodup) {v : Volunteer} (hv : v ∈ vols) :
    volunteerToShifts vols n v.name = volunteerEligible n v :=
  foldl_update_apply_of_mem vols (·.name) (volunteerEligible n) _ hVN v hv

/-- `volunteerToShifts` is the default or some present volunteer's
eligible list. -/
theorem volunteerToShifts_cases (vols : List Volunteer) (n : ℕ) (name : String) :
    volunteerToShifts vols n name = [] ∨
    ∃ v ∈ vols, volunteerToShifts vols n name = volunteerEligible n v := by
  rcases foldl_update_apply_cases vols (·.name) (volunteerEligible n)
      (fun _ => []) name with h | ⟨v, hv, _, hval⟩
  · exact Or.inl h
  · exact Or.inr ⟨v, hv, hval⟩

/-- With distinct shift ids, `shiftCapacityMap` looks each shift id up
to its own capacity. -/
theorem shiftCapacityMap_apply_of_mem (shifts : List Shift)
    (hids : (shifts.map (·.id)).Nodup) {s : Shift} (hs : s ∈ shifts) :
    shiftCapacityMap shifts s.id = s.capacity :=
  foldl_update_apply_of_mem shifts (·.id) (·.capacity) _ hids s hs

/-- An id belonging to no shift gets the `|| 0` default capacity. -/
theorem shiftCapacityMap_apply_of_not_mem (shifts : List Shift) {t : String}
    (ht : t ∉ shifts.map (·.id)) : shiftCapacityMap shifts t = 0 :=
  foldl_update_apply_of_not_mem shifts (·.id) (·.capacity) _ t ht

/-- Every eligible shift id lives in the universe `eligUniverse`. -/
theorem volunteerToShifts_mem_eligUniverse (vols : List Volunteer) (n : ℕ) :
    ∀ name, ∀ t ∈ volunteerToShifts vols n name, t ∈ eligUniverse vols n := by
  intro name t ht
  rcases volunteerToShifts_cases vols n name with h | ⟨v, hv, h⟩
  · rw [h] at ht; cases ht
  · rw [h] at ht
    exact List.mem_dedup.mpr (List.mem_flatten.mpr
      ⟨volunteerEligible n v, List.mem_map_of_mem (volunteerEligible n) hv, ht⟩)

/-- The rank a volunteer's preference map records for a shift id
(`volunteer.preferences.get(shiftId)`). -/
def prefRank (v : Volunteer) (sid : String) : Option ℕ :=
  (v.preferences.find? fun p => decide (p.1 = sid)).map (·.2)

/-- With distinct preference keys (a JS `Map` guarantees them), a shift
id is in the eligible list exactly when its recorded rank is at most
`n`. -/
theorem mem_volunteerEligible_iff (n : ℕ) (v : Volunteer)
    (hkeys : (v.preferences.map (·.1)).Nodup) (sid : String) :
    sid ∈ volunteerEligible n v ↔ ∃ r, prefRank v sid = some r ∧ r ≤ n := by
  constructor
  · intro h
    obtain ⟨p, hp, hpid⟩ := List.mem_map.mp h
    have hpf := List.mem_filter.mp hp
    have hex : ∃ q, v.preferences.find? (fun p => decide (p.1 = sid)) = some q := by
      cases hfind : v.preferences.find? (fun p => decide (p.1 = sid)) with
      | none =>
        have := List.find?_eq_none.mp hfind p hpf.1
        simp [hpid] at this
      | some q => exact ⟨q, rfl⟩
    obtain ⟨q, hq⟩ := hex
    have hqmem := List.mem_of_find?_eq_some hq
    have hqid : q.1 = sid := by simpa using List.find?_some hq
    have hqp : q = p := List.inj_on_of_nodup_map hkeys hqmem hpf.1 (by rw [hqid, hpid])
    refine ⟨p.2, ?_, by simpa using hpf.2⟩
    rw [prefRank, hq, hqp]
    rfl
  · rintro ⟨r, hr, hrn⟩
    rw [prefRank] at hr
    cases hfind : v.preferences.find? (fun p => decide (p.1 = sid)) with
    | none => rw [hfind] at hr; cases hr
    | some q =>
      rw [hfind] at hr
      have hq2 : q.2 = r := by
        simpa using hr
      have hqmem := List.mem_of_find?_eq_some hfind
      have hqid : q.1 = sid := by simpa using List.find?_some hfind
      exact List.mem_map.mpr
        ⟨q, List.mem_filter.mpr ⟨hqmem, by simp [hq2, hrn]⟩, hqid⟩

/-- Direct rendering of the claimed semantics of the matching oracle:
an assignment of one shift per volunteer in which every volunteer's
assigned shift is one of the given shifts and has rank at most `n` in
their preferences, and no shift is used more often than its capacity. -/
def ValidTopNAssignment (vols : List Volunteer) (shifts : List Shift) (n : ℕ)
    (f : String → String) : Prop :=
  (∀ v ∈ vols, f v.name ∈ shifts.map (·.id)) ∧
  (∀ v ∈ vols, ∃ r, prefRank v (f v.name) = some r ∧ r ≤ n) ∧
  (∀ s ∈ shifts, ((vols.map (·.name)).filter fun w => f w = s.id).length ≤ s.capacity)

/-- The abstract matching problem the DFS solves coincides with the
claimed semantics, under the well-formedness the embedded JS maps assume
(distinct volunteer names, distinct shift ids, distinct preference
keys). -/
theorem abstractAssignment_iff_valid (vols : List Volunteer)
    (shifts : List Shift) (n : ℕ)
    (hVN : (vols.map (·.name)).Nodup)
    (hids : (shifts.map (·.id)).Nodup)
    (hkeys : ∀ v ∈ vols, (v.preferences.map (·.1)).Nodup)
    (f : String → String) :
    AbstractAssignment (volunteerToShifts vols n) (shiftCapacityMap shifts)
      (vols.map (·.name)) f ↔ ValidTopNAssignment vols shifts n f := by
  constructor
  · rintro ⟨hadj, hcap⟩
    have hmem : ∀ v ∈ vols, f v.name ∈ shifts.map (·.id) := by
      intro v hv
      by_contra hno
      have hc0 : shiftCapacityMap shifts (f v.name) = 0 :=
        shiftCapacityMap_apply_of_not_mem shifts hno
      have h1 : v.name ∈ (vols.map (·.name)).filter fun w => f w = f v.name :=
        List.mem_filter.mpr ⟨List.mem_map_of_mem (·.name) hv, by simp⟩
      have h2 := hcap (f v.name)
      rw [hc0] at h2
      have h3 := List.length_pos_of_mem h1
      omega
    refine ⟨hmem, ?_, ?_⟩
    · intro v hv
      have hfv : f v.name ∈ volunteerToShifts vols n v.name :=
        hadj v.name (List.mem_map_of_mem (·.name) hv)
      rw [volunteerToShifts_apply_of_mem vols n hVN hv] at hfv
      exact (mem_volunteerEligible_iff n v (hkeys v hv) _).mp hfv
    · intro s hs
      have h2 := hcap s.id
      rw [shiftCapacityMap_apply_of_mem shifts hids hs] at h2
      exact h2
  · rintro ⟨hmem, hrank, hcap⟩
    constructor
    · intro name hname
      obtain ⟨v, hv, hvn⟩ := List.mem_map.mp hname
      rw [← hvn, volunteerToShifts_apply_of_mem vols n hVN hv]
      exact (mem_volunteerEligible_iff n v (hkeys v hv) _).mpr (hrank v hv)
    · intro t
      by_cases ht : t ∈ shifts.map (·.id)
      · obtain ⟨s, hs, hst⟩ := List.mem_map.mp ht
        have hst2 : s.id = t := hst
        rw [← hst2, shiftCapacityMap_apply_of_mem shifts hids hs]
        exact hcap s hs
      · rw [shiftCapacityMap_apply_of_not_mem shifts ht]
        have hempty : ((vols.map (·.name)).filter fun w => f w = t) = [] := by
          rw [List.filter_eq_nil_iff]
          intro w hw
          obtain ⟨v, hv, hvn⟩ := List.mem_map.mp hw
          have hfv := hmem v hv
          simp only [decide_eq_true_eq]
          intro he
          rw [hvn, he] at hfv
          exact ht hfv
        rw [hempty]
        simp

/-- Correctness of the matching oracle against the abstract problem:
`feasible` holds exactly when a capacity-respecting eligible assignment
exists, and exactly when no volunteer is left unmatched. -/
theorem checkFeasibility_iff_abstract (vols : List Volunteer)
    (shifts : List Shift) (n : ℕ)
    (hVN : (vols.map (·.name)).Nodup) :
    ((checkMatchingFeasibility vols shifts n).feasible = true ↔
      ∃ f, AbstractAssignment (volunteerToShifts vols n) (shiftCapacityMap shifts)
        (vols.map (·.name)) f) ∧
    ((checkMatchingFeasibility vols shifts n).feasible = true ↔
      (checkMatchingFeasibility vols shifts n).unmatchedVolunteers = []) := by
  have hUN : (eligUniverse vols n).Nodup := List.nodup_dedup _
  have hadjU := volunteerToShifts_mem_eligUniverse vols n
  have hA : StmtA (volunteerToShifts vols n) (shiftCapacityMap shifts)
      (vols.map (·.name)) (eligUniverse vols n)
      ((eligUniverse vols n).length + 1) :=
    (dfs_spec (volunteerToShifts vols n) (shiftCapacityMap shifts)
      (vols.map (·.name)) (eligUniverse vols n) hUN hadjU
      ((eligUniverse vols n).length + 1)).1
  have hInv0 : Inv (volunteerToShifts vols n) (shiftCapacityMap shifts)
      (vols.map (·.name)) ⟨fun _ => none, fun _ => []⟩ :=
    ⟨(fun u s => ⟨(fun h => nomatch h), (fun h => nomatch h)⟩),
      (fun _ => List.nodup_nil), (fun _ => Nat.zero_le _),
      (fun u s h => nomatch h), (fun u h => nomatch h)⟩
  have hspec := matchAll_spec (volunteerToShifts vols n) (shiftCapacityMap shifts)
    (vols.map (·.name)) (eligUniverse vols n) hVN
    ((eligUniverse vols n).length + 1) hA (le_refl _)
    (vols.map (·.name)) ⟨fun _ => none, fun _ => []⟩ []
    hInv0 (fun u hu => nomatch hu) (fun w hw => hw)
    (fun w _ => (fun h => nomatch h)) hVN
  obtain ⟨hInvF, _, hdisj, _⟩ := hspec
  set stF : MatchSt := matchAll (volunteerToShifts vols n) (shiftCapacityMap shifts)
    ((eligUniverse vols n).length + 1) (vols.map (·.name))
    ⟨fun _ => none, fun _ => []⟩ with hstF
  have hfeas : (checkMatchingFeasibility vols shifts n).feasible =
      ((vols.filter fun v => (stF.matching v.name).isNone).map (·.name)).isEmpty := by
    rw [hstF]; rfl
  have hunm : (checkMatchingFeasibility vols shifts n).unmatchedVolunteers =
      (vols.filter fun v => (stF.matching v.name).isNone).map (·.name) := by
    rw [hstF]; rfl
  refine ⟨⟨?_, ?_⟩, ?_⟩
  · intro hok
    have hempty : (vols.filter fun v => (stF.matching v.name).isNone) = [] := by
      have := hfeas ▸ hok
      have h2 := List.isEmpty_iff.mp this
      exact List.map_eq_nil_iff.mp h2
    have hall : ∀ v ∈ vols, ∃ s, stF.matching v.name = some s := by
      intro v hv
      cases hm : stF.matching v.name with
      | some s => exact ⟨s, rfl⟩
      | none =>
        exfalso
        have hvf : v ∈ vols.filter fun v => (stF.matching v.name).isNone :=
          List.mem_filter.mpr ⟨hv, by rw [hm]; rfl⟩
        rw [hempty] at hvf
        cases hvf
    refine ⟨fun name => (stF.matching name).getD "", ?_, ?_⟩
    · intro name hname
      obtain ⟨v, hv, hvn⟩ := List.mem_map.mp hname
      obtain ⟨s, hs⟩ := hall v hv
      rw [← hvn]
      show (stF.matching v.name).getD "" ∈ volunteerToShifts vols n v.name
      rw [hs, Option.getD_some]
      exact hInvF.2.2.2.1 v.name s hs
    · intro t
      have hsubT : ∀ w ∈ (vols.map (·.name)).filter
          (fun w => (stF.matching w).getD "" = t), w ∈ stF.rev t := by
        intro w hw
        have hw1 := List.mem_filter.mp hw
        obtain ⟨v, hv, hvn⟩ := List.mem_map.mp hw1.1
        obtain ⟨s, hs⟩ := hall v hv
        have hst : s = t := by
          have h3 := hw1.2
          rw [← hvn, hs, Option.getD_some] at h3
          simpa using h3
        rw [← hvn, ← hst]
        exact (hInvF.1 v.name s).mp hs
      calc ((vols.map (·.name)).filter
            (fun w => (stF.matching w).getD "" = t)).length
          ≤ (stF.rev t).length := ((hVN.filter _).subperm hsubT).length_le
        _ ≤ shiftCapacityMap shifts t := hInvF.2.2.1 t
  · rintro ⟨f, hf⟩
    rw [hfeas]
    cases hl : vols.filter (fun v => (stF.matching v.name).isNone) with
    | nil => rfl
    | cons v tl =>
      exfalso
      have hvmem : v ∈ vols.filter (fun v => (stF.matching v.name).isNone) := by
        rw [hl]; exact List.mem_cons_self v tl
      have hv := List.mem_filter.mp hvmem
      rcases hdisj v.name (List.mem_map_of_mem (·.name) hv.1) with hsome | hnof
      · cases hm : stF.matching v.name with
        | none => rw [hm] at hsome; exact nomatch hsome
        | some s =>
          have h2 := hv.2
          rw [hm] at h2
          exact nomatch h2
      · exact hnof ⟨f, hf⟩
  · have hfe : (checkMatchingFeasibility vols shifts n).feasible =
        (checkMatchingFeasibility vols shifts n).unmatchedVolunteers.isEmpty := rfl
    rw [hfe]
    exact List.isEmpty_iff

/-- C1: for every list of volunteers, list of shifts and positive `n`
(under the well-formedness the JS `Map`s guarantee: distinct volunteer
names, distinct shift ids, distinct preference keys per volunteer),
`checkMatchingFeasibility` reports `feasible = true` exactly when there
is an assignment of one shift per volunteer in which every volunteer's
assigned shift has rank at most `n` in their preferences and no shift is
used more times than its capacity; and `feasible` is `true` exactly when
the returned `unmatchedVolunteers` list is empty. -/
theorem checkMatchingFeasibility_correct (vols : List Volunteer)
    (shifts : List Shift) (n : ℕ) (hn : 0 < n)
    (hVN : (vols.map (·.name)).Nodup)
    (hids : (shifts.map (·.id)).Nodup)
    (hkeys : ∀ v ∈ vols, (v.preferences.map (·.1)).Nodup) :
    ((checkMatchingFeasibility vols shifts n).feasible = true ↔
      ∃ f, ValidTopNAssignment vols shifts n f) ∧
    ((checkMatchingFeasibility vols shifts n).feasible = true ↔
      (checkMatchingFeasibility vols shifts n).unmatchedVolunteers = []) := by
  obtain ⟨h1, h2⟩ := checkFeasibility_iff_abstract vols shifts n hVN
  refine ⟨?_, h2⟩
  rw [h1]
  exact exists_congr fun f => abstractAssignment_iff_valid vols shifts n hVN hids hkeys f

/-- Concrete volunteers for the C1 witness. -/
def c1Vols : List Volunteer :=
  [⟨"alice", 0, [("s1", 1)]⟩, ⟨"bob", 0, [("s1", 1), ("s2", 2)]⟩]

/-- Concrete shifts for the C1 witness. -/
def c1Shifts : List Shift :=
  [⟨"s1", "d", "r", 0, 60, 1, 1⟩, ⟨"s2", "d", "r", 60, 120, 1, 1⟩]

/-- C1 witness: the oracle-correctness theorem instantiated at a
concrete two-volunteer input. -/
theorem checkMatchingFeasibility_correct_witness :
    ((checkMatchingFeasibility c1Vols c1Shifts 2).feasible = true ↔
      ∃ f, ValidTopNAssignment c1Vols c1Shifts 2 f) ∧
    ((checkMatchingFeasibility c1Vols c1Shifts 2).feasible = true ↔
      (checkMatchingFeasibility c1Vols c1Shifts 2).unmatchedVolunteers = []) :=
  checkMatchingFeasibility_correct c1Vols c1Shifts 2 (by decide) (by decide)
    (by decide) (by decide)

/-- Characterization of the guarantee-level scan loop: it returns the
first feasible level in the window it is given (recording the unmatched
lists of every attempted level), or 0 with every level recorded when
none is feasible. -/
theorem guaranteeScan_correct (vols : List Volunteer) (shifts : List Shift) :
    ∀ (remaining level : ℕ) (acc : List (ℕ × List String)),
      ((guaranteeScan vols shifts remaining level acc).1 = 0 ∧
        (∀ k, level ≤ k → k < level + remaining →
          (checkMatchingFeasibility vols shifts k).feasible = false) ∧
        (guaranteeScan vols shifts remaining level acc).2 =
          acc ++ (List.range' level remaining).map
            (fun k => (k, (checkMatchingFeasibility vols shifts k).unmatchedVolunteers)))
      ∨
      (level ≤ (guaranteeScan vols shifts remaining level acc).1 ∧
        (guaranteeScan vols shifts remaining level acc).1 < level + remaining ∧
        (checkMatchingFeasibility vols shifts
          (guaranteeScan vols shifts remaining level acc).1).feasible = true ∧
        (∀ k, level ≤ k → k < (guaranteeScan vols shifts remaining level acc).1 →
          (checkMatchingFeasibility vols shifts k).feasible = false) ∧
        (guaranteeScan vols shifts remaining level acc).2 =
          acc ++ (List.range' level
              ((guaranteeScan vols shifts remaining level acc).1 - level + 1)).map
            (fun k => (k, (checkMatchingFeasibility vols shifts k).unmatchedVolunteers))) := by
  intro remaining
  induction remaining with
  | zero =>
    intro level acc
    left
    exact ⟨rfl, (fun k hk1 hk2 => absurd hk2 (by omega)), by simp [guaranteeScan]⟩
  | succ rem ih =>
    intro level acc
    cases hf : (checkMatchingFeasibility vols shifts level).feasible with
    | true =>
      have hstep : guaranteeScan vols shifts (rem + 1) level acc =
          (level, acc ++
            [(level, (checkMatchingFeasibility vols shifts level).unmatchedVolunteers)]) := by
        rw [guaranteeScan]
        simp [hf]
      right
      rw [hstep]
      refine ⟨le_refl level, by omega, hf,
        (fun k hk1 hk2 => absurd hk1 (by omega)), ?_⟩
      have h1 : level - level + 1 = 1 := by omega
      rw [h1]
      rfl
    | false =>
      have hstep : guaranteeScan vols shifts (rem + 1) level acc =
          guaranteeScan vols shifts rem (level + 1) (acc ++
            [(level, (checkMatchingFeasibility vols shifts level).unmatchedVolunteers)]) := by
        rw [guaranteeScan]
        simp [hf]
      rw [hstep]
      rcases ih (level + 1) (acc ++
          [(level, (checkMatchingFeasibility vols shifts level).unmatchedVolunteers)]) with
        ⟨h0, hall, hrec⟩ | ⟨h1, h2, h3, h4, hrec⟩
      · left
        refine ⟨h0, ?_, ?_⟩
        · intro k hk1 hk2
          rcases Nat.eq_or_lt_of_le hk1 with rfl | hlt
          · exact hf
          · exact hall k hlt (by omega)
        · rw [hrec, List.range'_succ, List.map_cons, List.append_assoc]
          rfl
      · right
        refine ⟨by omega, by omega, h3, ?_, ?_⟩
        · intro k hk1 hk2
          rcases Nat.eq_or_lt_of_le hk1 with rfl | hlt
          · exact hf
          · exact h4 k hlt hk2
        · have hm : (guaranteeScan vols shifts rem (level + 1) (acc ++
              [(level, (checkMatchingFeasibility vols shifts level).unmatchedVolunteers)])).1
                - level + 1 =
              ((guaranteeScan vols shifts rem (level + 1) (acc ++
              [(level, (checkMatchingFeasibility vols shifts level).unmatchedVolunteers)])).1
                - (level + 1) + 1) + 1 := by omega
          rw [hrec, hm, List.range'_succ, List.map_cons, List.append_assoc]
          rfl

/-- C5: `detectMinimumGuarantee` scans levels `1 … max(maxPrefRank, 10)`
recording the unmatched volunteers of every attempted level, returns the
smallest feasible level, and returns 0 (with every level in the range
recorded and infeasible) when none succeeds; as a total function of its
inputs it reports no error. -/
theorem detectMinimumGuarantee_correct (vols : List Volunteer) (shifts : List Shift) :
    ((detectMinimumGuarantee vols shifts).1 = 0 ∧
      (∀ k, 1 ≤ k → k ≤ max (maxPrefRank vols) 10 →
        (checkMatchingFeasibility vols shifts k).feasible = false) ∧
      (detectMinimumGuarantee vols shifts).2 =
        (List.range' 1 (max (maxPrefRank vols) 10)).map
          (fun k => (k, (checkMatchingFeasibility vols shifts k).unmatchedVolunteers)))
    ∨
    (1 ≤ (detectMinimumGuarantee vols shifts).1 ∧
      (detectMinimumGuarantee vols shifts).1 ≤ max (maxPrefRank vols) 10 ∧
      (checkMatchingFeasibility vols shifts
        (detectMinimumGuarantee vols shifts).1).feasible = true ∧
      (∀ k, 1 ≤ k → k < (detectMinimumGuarantee vols shifts).1 →
        (checkMatchingFeasibility vols shifts k).feasible = false) ∧
      (detectMinimumGuarantee vols shifts).2 =
        (List.range' 1 (detectMinimumGuarantee vols shifts).1).map
          (fun k => (k, (checkMatchingFeasibility vols shifts k).unmatchedVolunteers))) := by
  have hd : detectMinimumGuarantee vols shifts =
      guaranteeScan vols shifts (max (maxPrefRank vols) 10) 1 [] := rfl
  rw [hd]
  rcases guaranteeScan_correct vols shifts (max (maxPrefRank vols) 10) 1 [] with
    ⟨h0, hall, hrec⟩ | ⟨h1, h2, h3, h4, hrec⟩
  · left
    exact ⟨h0, (fun k hk1 hk2 => hall k hk1 (by omega)), by simpa using hrec⟩
  · right
    have hr1 : (guaranteeScan vols shifts (max (maxPrefRank vols) 10) 1 []).1 - 1 + 1 =
        (guaranteeScan vols shifts (max (maxPrefRank vols) 10) 1 []).1 := by omega
    refine ⟨h1, by omega, h3, h4, ?_⟩
    rw [hrec, hr1]
    simp

/-- C8: the solver result status is a discriminated value with exactly
four alternatives, in bijection with the spec's
`Optimal | Feasible | Infeasible | Transient` taxonomy (the code literal
for `Transient` being `'error'`). -/
theorem solverStatus_exactly_four_values :
    Function.Bijective statusOfSpec ∧
      Fintype.card SolverStatus = 4 ∧ Fintype.card SpecSolverStatus = 4 := by
  refine ⟨⟨?_, ?_⟩, by decide, by decide⟩
  · intro a b h
    cases a <;> cases b <;> first | rfl | exact absurd h (by decide)
  · intro s
    cases s with
    | optimal => exact ⟨.Optimal, rfl⟩
    | feasible => exact ⟨.Feasible, rfl⟩
    | infeasible => exact ⟨.Infeasible, rfl⟩
    | error => exact ⟨.Transient, rfl⟩

/-- C9: the seeded generator's state update is not the exact linear
congruential step.  Starting from seed 1 the first update is still exact
(the product fits in 53 bits), but the second update — from the reached
state 1103527590 — rounds the 61-bit product `1103527590 · 1103515245`
to binary64 and lands on 377401600 where the exact arithmetic of the
claim gives 377401575. -/
theorem seededRandom_deviates_from_exact_lcg :
    jsSeedNext 1 = lcgNext 1 ∧ jsSeedNext 1 = 1103527590 ∧
      jsSeedNext (jsSeedNext 1) = 377401600 ∧
      lcgNext (lcgNext 1) = 377401575 ∧
      jsSeedNext (jsSeedNext 1) ≠ lcgNext (lcgNext 1) := by
  refine ⟨by decide, by decide, by decide, by decide, by decide⟩

/-- C10: with an empty volunteer list or an empty shift list,
`detectOptimalSettings` returns the fixed defaults (minPoints 6, maxOver
2, maxShifts 10, guaranteeLevel 0, with the fixed ranges), whatever the
matching-oracle call would return — in particular without consulting
it. -/
theorem detectOptimalSettings_empty_defaults
    (detectGuarantee : List Volunteer → List Shift → ℕ)
    (vols : List Volunteer) (shifts : List Shift)
    (h : vols = [] ∨ shifts = []) :
    detectOptimalSettingsWith detectGuarantee vols shifts = defaultDetectedSettings := by
  have hg : vols.length = 0 ∨ shifts.length = 0 := by
    rcases h with h | h <;> [left; right] <;> simp [h]
  rw [detectOptimalSettingsWith, if_pos hg]

/-- C10 witness: at the concrete empty input the defaults come back even
for an oracle that would answer 99. -/
theorem detectOptimalSettings_empty_defaults_witness :
    detectOptimalSettingsWith (fun _ _ => 99) [] [] = defaultDetectedSettings :=
  detectOptimalSettings_empty_defaults (fun _ _ => 99) [] [] (Or.inl rfl)

/-- Helper for C2: a solve oracle that never succeeds leaves the
recorded best at `none` for any fuel and interval. -/
theorem egalLoop_none_of_never_success (solve : ℚ → SolverResult)
    (hs : ∀ τ, (solve τ).status.isSuccess = false) :
    ∀ (fuel : ℕ) (low high : ℚ), egalLoop solve fuel low high none = none := by
  intro fuel
  induction fuel with
  | zero => intro low high; rfl
  | succ fuel ih =>
    intro low high
    simp only [egalLoop]
    split
    · rw [hs ((low + high) / 2)]
      simpa using ih low ((low + high) / 2)
    · rfl

/-- C2: the egalitarian search is exactly the spec's binary search on
the target average over `[0, 5]` with tolerance 0.1 — solve at the
midpoint, record `optimal`/`feasible` results as best and raise `low`,
otherwise lower `high`, and return the recorded best — and when no
target ever succeeds the reported infeasibility sends the orchestrator
to the hard-fill phase with no seed solution. -/
theorem egalitarian_search_is_spec_binary_search :
    (∀ solve : ℚ → SolverResult,
      runEgalitarianSolver solve = specEgalitarianSearch solve) ∧
    (∀ (shifts : List Shift) (solve : ℚ → SolverResult)
        (hardFill : List Assignment → SolverResult),
      (∀ τ, (solve τ).status.isSuccess = false) →
        runEgalitarianSolver solve = noFeasibleResult ∧
        solveShiftAssignment shifts solve hardFill = hardFill []) := by
  constructor
  · intro solve
    have hloop : ∀ (fuel : ℕ) (low high : ℚ) (best : Option SolverResult),
        egalLoop solve fuel low high best = specEgalStep solve fuel (low, high, best) := by
      intro fuel
      induction fuel with
      | zero => intro low high best; rfl
      | succ fuel ih =>
        intro low high best
        simp only [egalLoop, specEgalStep, gt_iff_lt]
        split
        · cases h : (solve ((low + high) / 2)).status <;>
            simp [SolverStatus.isSuccess, h, ih]
        · rfl
    rw [runEgalitarianSolver, specEgalitarianSearch, hloop]
    cases specEgalStep solve 6 (0, 5, none) <;> rfl
  · intro shifts solve hardFill hs
    have hrun : runEgalitarianSolver solve = noFeasibleResult := by
      rw [runEgalitarianSolver, egalLoop_none_of_never_success solve hs]
    refine ⟨hrun, ?_⟩
    rw [solveShiftAssignment, hrun]
    rfl

/-- C2 witness: a concretely always-infeasible oracle drives the search
to the infeasible phase-1 report and the orchestrator to a hard-fill
from the empty seed. -/
theorem egalitarian_search_witness :
    runEgalitarianSolver (fun _ => { status := .infeasible, phase := 1, assignments := [] })
        = noFeasibleResult ∧
      solveShiftAssignment []
        (fun _ => { status := .infeasible, phase := 1, assignments := [] })
        (fun seed => { status := .optimal, phase := 2, assignments := seed ++ [⟨"a", "s"⟩] })
        = { status := .optimal, phase := 2, assignments := [⟨"a", "s"⟩] } := by
  have h := egalitarian_search_is_spec_binary_search.2 []
    (fun _ => { status := .infeasible, phase := 1, assignments := [] })
    (fun seed => { status := .optimal, phase := 2, assignments := seed ++ [⟨"a", "s"⟩] })
    (fun _ => rfl)
  exact ⟨h.1, h.2⟩

/-- Helper for C3: the embedded sweep and the spec-side sweep agree on
every level list. -/
theorem hardFillLoop_eq_spec (settings : Settings)
    (tryHF : ℚ → ℚ → ℚ → SolverResult) (diagnosis : List IssueType)
    (existing : List Assignment) :
    ∀ levels : List RelaxLevel,
      hardFillLoop settings tryHF diagnosis existing levels =
        specHardFillSweep settings tryHF diagnosis existing levels := by
  intro levels
  induction levels with
  | nil => rfl
  | cons level rest ih =>
    simp only [hardFillLoop, specHardFillSweep]
    cases h : (tryHF level.minPointsMultiplier level.maxShiftsMultiplier
        level.maxPointsMultiplier).status <;>
      simp [SolverStatus.isSuccess, h, ih] <;>
      by_cases hf : level.name = RelaxName.full <;> simp [hf]

/-- Helper for C3: when every relaxation level fails, the sweep falls
through to the infeasible phase-2 result carrying the diagnosis. -/
theorem hardFillLoop_all_fail (settings : Settings)
    (tryHF : ℚ → ℚ → ℚ → SolverResult) (diagnosis : List IssueType)
    (existing : List Assignment)
    (hfail : ∀ a b c, (tryHF a b c).status.isSuccess = false) :
    ∀ levels : List RelaxLevel,
      hardFillLoop settings tryHF diagnosis existing levels =
        { status := .infeasible, phase := 2, assignments := existing,
          infeasibilityDiagnosis := some diagnosis } := by
  intro levels
  induction levels with
  | nil => rfl
  | cons level rest ih =>
    simp only [hardFillLoop, hfail, ih]
    simp

/-- C3: the hard-fill phase attempts the relaxation ladder
`full (1, 1, 1)`, `relaxed-points (0.5, 1.5, 1.5)`,
`minimal (0, 2, 2)` in that order — only `full` when relaxation is
disallowed — matching the spec-side sweep exactly (first success wins,
relaxation descriptor attached iff the level is not `full`), and when
every level fails the diagnosis is attached to the infeasible result. -/
theorem hardFill_progressive_relaxation :
    (relaxationLevels true =
      [⟨.full, 1, 1, 1⟩, ⟨.relaxedPoints, 1 / 2, 3 / 2, 3 / 2⟩, ⟨.minimal, 0, 2, 2⟩]) ∧
    (relaxationLevels false = [⟨.full, 1, 1, 1⟩]) ∧
    (∀ (settings : Settings) (tryHF : ℚ → ℚ → ℚ → SolverResult)
        (diagnosis : List IssueType) (existing : List Assignment),
      runHardFillPhase settings tryHF diagnosis existing =
        specHardFillPhase settings tryHF diagnosis existing) ∧
    (∀ (settings : Settings) (tryHF : ℚ → ℚ → ℚ → SolverResult)
        (diagnosis : List IssueType) (existing : List Assignment),
      (∀ a b c, (tryHF a b c).status.isSuccess = false) →
        runHardFillPhase settings tryHF diagnosis existing =
          { status := .infeasible, phase := 2, assignments := existing,
            infeasibilityDiagnosis := some diagnosis }) := by
  refine ⟨rfl, rfl, ?_, ?_⟩
  · intro settings tryHF diagnosis existing
    rw [runHardFillPhase, specHardFillPhase, hardFillLoop_eq_spec]
    rw [relaxationLevels]
  · intro settings tryHF diagnosis existing hfail
    rw [runHardFillPhase, hardFillLoop_all_fail settings tryHF diagnosis existing hfail]

/-- C3 witness: with an oracle that succeeds only below the `full`
multipliers, the concrete sweep lands on `relaxed-points` and attaches
its descriptor; with a never-succeeding oracle the diagnosis is
attached. -/
theorem hardFill_progressive_relaxation_witness :
    runHardFillPhase
        { minPoints := 6, maxOver := 2, maxShifts := 10, forbidBackToBack := false,
          backToBackGap := 2, guaranteeLevel := 0, allowRelaxation := true, seed := 42 }
        (fun a _ _ => if a < 1 then { status := .optimal, phase := 2, assignments := [] }
          else { status := .infeasible, phase := 2, assignments := [] })
        [IssueType.pointsShortage] [] =
      { status := .optimal, phase := 2, assignments := [],
        relaxation := some ⟨.relaxedPoints, 1 / 2, 3 / 2, 6, 10⟩ } ∧
    runHardFillPhase
        { minPoints := 6, maxOver := 2, maxShifts := 10, forbidBackToBack := false,
          backToBackGap := 2, guaranteeLevel := 0, allowRelaxation := true, seed := 42 }
        (fun _ _ _ => { status := .infeasible, phase := 2, assignments := [] })
        [IssueType.pointsShortage] [] =
      { status := .infeasible, phase := 2, assignments := [],
        infeasibilityDiagnosis := some [IssueType.pointsShortage] } := by
  constructor
  · norm_num [runHardFillPhase, relaxationLevels, hardFillLoop, SolverStatus.isSuccess]
    exact fun h => RelaxName.noConfusion h
  · exact hardFill_progressive_relaxation.2.2.2 _ _ _ _ (fun _ _ _ => rfl)

/-- Helper: counting an element of a duplicate-free list gives 1 (stated
for the `BEq` instance the pair lists use). -/
theorem count_one_of_nodup_mem {α : Type} [BEq α] [LawfulBEq α] {l : List α}
    (d : l.Nodup) {a : α} (h : a ∈ l) : l.count a = 1 := by
  induction l with
  | nil => cases h
  | cons b t ih =>
    rw [List.count_cons]
    rcases List.mem_cons.mp h with rfl | hmem
    · rw [List.count_eq_zero.mpr (by simpa using (List.nodup_cons.mp d).1)]
      simp
    · rw [ih (List.nodup_cons.mp d).2 hmem]
      have hne : ¬ (b == a) = true := by
        intro hb
        exact (List.nodup_cons.mp d).1 (eq_of_beq hb ▸ hmem)
      simp [hne]

/-- Helper for C6: in a shift list with distinct ids, an enumerated
entry is determined by its shift's id. -/
theorem enum_entry_inj_id {shifts : List Shift}
    (hids : (shifts.map (·.id)).Nodup) {p q : ℕ × Shift}
    (hp : p ∈ shifts.enum) (hq : q ∈ shifts.enum) (h : p.2.id = q.2.id) :
    p = q := by
  obtain ⟨i, x⟩ := p
  obtain ⟨j, y⟩ := q
  rw [List.mk_mem_enum_iff_getElem?] at hp hq
  obtain ⟨hi, hx⟩ := List.getElem?_eq_some_iff.mp hp
  obtain ⟨hj, hy⟩ := List.getElem?_eq_some_iff.mp hq
  have hi2 : i < (shifts.map (·.id)).length := by simpa using hi
  have hj2 : j < (shifts.map (·.id)).length := by simpa using hj
  have hij : i = j := by
    have hmi : (shifts.map (·.id))[i] = x.id := by
      rw [List.getElem_map]; rw [hx]
    have hmj : (shifts.map (·.id))[j] = y.id := by
      rw [List.getElem_map]; rw [hy]
    exact (hids.getElem_inj_iff).mp (by
      rw [hmi, hmj]; exact h)
  subst hij
  have : x = y := by rw [← hx, ← hy]
  rw [this]

/-- Helper for C6: the generic pair-emitting double loop over the
enumerated shift list produces a duplicate-free list when shift ids are
distinct. -/
theorem pairList_nodup {shifts : List Shift}
    (hids : (shifts.map (·.id)).Nodup) (cond : ℕ × Shift → ℕ × Shift → Bool) :
    (shifts.enum.flatMap fun is =>
      ((shifts.enum.filter fun jt => cond is jt).map fun jt => (is.2.id, jt.2.id))).Nodup := by
  have henum : shifts.enum.Nodup := (List.nodup_enum_map_fst shifts).of_map _
  refine List.nodup_flatMap.mpr ⟨?_, ?_⟩
  · intro is his
    refine List.Nodup.map_on ?_ (henum.filter _)
    intro jt₁ h₁ jt₂ h₂ he
    have h₁' := (List.mem_filter.mp h₁).1
    have h₂' := (List.mem_filter.mp h₂).1
    exact enum_entry_inj_id hids h₁' h₂' (by
      have := congrArg Prod.snd he
      simpa using this)
  · refine henum.imp_of_mem ?_
    intro is₁ is₂ h₁ h₂ hne z hz₁ hz₂
    simp only [List.mem_map, List.mem_filter] at hz₁ hz₂
    obtain ⟨jt₁, _, hzeq₁⟩ := hz₁
    obtain ⟨jt₂, _, hzeq₂⟩ := hz₂
    have hfst : is₁.2.id = is₂.2.id := by
      have e₁ := congrArg Prod.fst hzeq₁
      have e₂ := congrArg Prod.fst hzeq₂
      simp only at e₁ e₂
      rw [e₁, ← e₂]
    exact hne (enum_entry_inj_id hids h₁ h₂ hfst)

/-- Helper for C6: membership in the generic pair list. -/
theorem mem_pairList {shifts : List Shift} {cond : ℕ × Shift → ℕ × Shift → Bool}
    {x y : String} :
    ((x, y) ∈ shifts.enum.flatMap fun is =>
      ((shifts.enum.filter fun jt => cond is jt).map fun jt => (is.2.id, jt.2.id))) ↔
    ∃ is ∈ shifts.enum, ∃ jt ∈ shifts.enum,
      cond is jt = true ∧ is.2.id = x ∧ jt.2.id = y := by
  simp only [List.mem_flatMap, List.mem_map, List.mem_filter, Prod.mk.injEq]
  constructor
  · rintro ⟨is, his, jt, ⟨hjt, hc⟩, hx, hy⟩
    exact ⟨is, his, jt, hjt, hc, hx, hy⟩
  · rintro ⟨is, his, jt, hjt, hc, hx, hy⟩
    exact ⟨is, his, jt, ⟨hjt, hc⟩, hx, hy⟩

/-- Helper for C6: every shift occurs as an enumerated entry. -/
theorem exists_enum_entry {shifts : List Shift} {a : Shift} (ha : a ∈ shifts) :
    ∃ p : ℕ × Shift, p ∈ shifts.enum ∧ p.2 = a := by
  have : a ∈ shifts.enum.map Prod.snd := by
    rw [List.enum_map_snd]; exact ha
  obtain ⟨p, hp, hpa⟩ := List.mem_map.mp this
  exact ⟨p, hp, hpa⟩

/-- Helper for C6: the Boolean overlap test unfolded. -/
theorem shiftsOverlap_iff (s t : Shift) :
    shiftsOverlap s t = true ↔
      s.date = t.date ∧ s.startTime < t.endTime ∧ t.startTime < s.endTime := by
  by_cases hd : s.date = t.date <;> simp [shiftsOverlap, hd]

/-- Helper for C6: overlap is symmetric. -/
theorem shiftsOverlap_comm (s t : Shift) : shiftsOverlap s t = shiftsOverlap t s := by
  by_cases ho : shiftsOverlap s t = true
  · have h := (shiftsOverlap_iff s t).mp ho
    rw [ho, ((shiftsOverlap_iff t s).mpr ⟨h.1.symm, h.2.2, h.2.1⟩)]
  · by_cases ho' : shiftsOverlap t s = true
    · have h := (shiftsOverlap_iff t s).mp ho'
      exact absurd ((shiftsOverlap_iff s t).mpr ⟨h.1.symm, h.2.2, h.2.1⟩) ho
    · rw [Bool.not_eq_true] at ho ho'
      rw [ho, ho']

/-- Helper for C6: the Boolean sequential test unfolded. -/
theorem shiftsSequential_iff (s t : Shift) (g : ℚ) :
    shiftsSequential s t g = true ↔
      s.date = t.date ∧ 0 ≤ t.startTime - s.endTime ∧
        ((t.startTime - s.endTime : ℤ) : ℚ) ≤ g * 60 * 60 * 1000 := by
  by_cases hd : s.date = t.date <;> simp [shiftsSequential, hd, mul_assoc]

/-- C6: in a shift list with distinct ids, each unordered pair of
same-date shifts with `a.start < b.end` and `b.start < a.end` is stored
exactly once in the overlap list (in one of its two orientations), and
the directed pair `(a, b)` is emitted exactly once in the sequential
list for every same-date ordered pair of distinct shifts with
`0 ≤ b.start − a.end ≤ G` hours (G · 3 600 000 in millisecond
timestamps). -/
theorem conflictGraph_pairs (shifts : List Shift) (G : ℚ)
    (hids : (shifts.map (·.id)).Nodup) (a b : Shift)
    (ha : a ∈ shifts) (hb : b ∈ shifts) (hab : a.id ≠ b.id) :
    ((overlappingPairs shifts).count (a.id, b.id) +
        (overlappingPairs shifts).count (b.id, a.id) =
      if a.date = b.date ∧ a.startTime < b.endTime ∧ b.startTime < a.endTime
        then 1 else 0) ∧
    ((sequentialPairs shifts G).count (a.id, b.id) =
      if a.date = b.date ∧ 0 ≤ b.startTime - a.endTime ∧
          ((b.startTime - a.endTime : ℤ) : ℚ) ≤ G * 60 * 60 * 1000
        then 1 else 0) := by
  obtain ⟨p, hp, hpa⟩ := exists_enum_entry ha
  obtain ⟨q, hq, hqb⟩ := exists_enum_entry hb
  have hpq : p ≠ q := fun h => hab (by rw [← hpa, ← hqb, h])
  have hpq1 : p.1 ≠ q.1 := by
    intro h
    obtain ⟨i, x⟩ := p
    obtain ⟨j, y⟩ := q
    simp only at h
    subst h
    rw [List.mk_mem_enum_iff_getElem?] at hp hq
    have hxy : x = y := by rw [hp] at hq; exact Option.some.inj hq
    exact hpq (by rw [hxy])
  have hnodupO : (overlappingPairs shifts).Nodup := pairList_nodup hids _
  have hnodupS : (sequentialPairs shifts G).Nodup := pairList_nodup hids _
  constructor
  · -- overlap: stored once, in the orientation of increasing input index
    by_cases hc : a.date = b.date ∧ a.startTime < b.endTime ∧ b.startTime < a.endTime
    · rcases lt_or_gt_of_ne hpq1 with hlt | hgt
      · have hmem : (a.id, b.id) ∈ overlappingPairs shifts := by
          rw [overlappingPairs, mem_pairList]
          refine ⟨p, hp, q, hq, ?_, by rw [hpa], by rw [hqb]⟩
          rw [Bool.and_eq_true, decide_eq_true_eq]
          exact ⟨hlt, by rw [hpa, hqb]; exact (shiftsOverlap_iff a b).mpr hc⟩
        have hnot : (b.id, a.id) ∉ overlappingPairs shifts := by
          intro hmem2
          rw [overlappingPairs, mem_pairList] at hmem2
          obtain ⟨is, his, jt, hjt, hcond, hx, hy⟩ := hmem2
          have heq1 : is = q := enum_entry_inj_id hids his hq (by rw [hx, hqb])
          have heq2 : jt = p := enum_entry_inj_id hids hjt hp (by rw [hy, hpa])
          rw [heq1, heq2, Bool.and_eq_true, decide_eq_true_eq] at hcond
          exact absurd hcond.1 (not_lt.mpr hlt.le)
        rw [count_one_of_nodup_mem hnodupO hmem,
          List.count_eq_zero.mpr hnot, if_pos hc]
      · have hmem : (b.id, a.id) ∈ overlappingPairs shifts := by
          rw [overlappingPairs, mem_pairList]
          refine ⟨q, hq, p, hp, ?_, by rw [hqb], by rw [hpa]⟩
          rw [Bool.and_eq_true, decide_eq_true_eq]
          refine ⟨hgt, ?_⟩
          rw [hpa, hqb, shiftsOverlap_comm]
          exact (shiftsOverlap_iff a b).mpr hc
        have hnot : (a.id, b.id) ∉ overlappingPairs shifts := by
          intro hmem2
          rw [overlappingPairs, mem_pairList] at hmem2
          obtain ⟨is, his, jt, hjt, hcond, hx, hy⟩ := hmem2
          have heq1 : is = p := enum_entry_inj_id hids his hp (by rw [hx, hpa])
          have heq2 : jt = q := enum_entry_inj_id hids hjt hq (by rw [hy, hqb])
          rw [heq1, heq2, Bool.and_eq_true, decide_eq_true_eq] at hcond
          exact absurd hcond.1 (not_lt.mpr hgt.le)
        rw [count_one_of_nodup_mem hnodupO hmem,
          List.count_eq_zero.mpr hnot, if_pos hc]
    · have hnot1 : (a.id, b.id) ∉ overlappingPairs shifts := by
        intro hmem
        rw [overlappingPairs, mem_pairList] at hmem
        obtain ⟨is, his, jt, hjt, hcond, hx, hy⟩ := hmem
        have heq1 : is = p := enum_entry_inj_id hids his hp (by rw [hx, hpa])
        have heq2 : jt = q := enum_entry_inj_id hids hjt hq (by rw [hy, hqb])
        rw [heq1, heq2, Bool.and_eq_true] at hcond
        rw [hpa, hqb, shiftsOverlap_iff] at hcond
        exact hc hcond.2
      have hnot2 : (b.id, a.id) ∉ overlappingPairs shifts := by
        intro hmem
        rw [overlappingPairs, mem_pairList] at hmem
        obtain ⟨is, his, jt, hjt, hcond, hx, hy⟩ := hmem
        have heq1 : is = q := enum_entry_inj_id hids his hq (by rw [hx, hqb])
        have heq2 : jt = p := enum_entry_inj_id hids hjt hp (by rw [hy, hpa])
        rw [heq1, heq2, Bool.and_eq_true] at hcond
        rw [hqb, hpa, shiftsOverlap_comm, shiftsOverlap_iff] at hcond
        exact hc hcond.2
      rw [List.count_eq_zero.mpr hnot1, List.count_eq_zero.mpr hnot2, if_neg hc]
  · -- sequential: directed, emitted exactly for qualifying ordered pairs
    by_cases hc : a.date = b.date ∧ 0 ≤ b.startTime - a.endTime ∧
        ((b.startTime - a.endTime : ℤ) : ℚ) ≤ G * 60 * 60 * 1000
    · have hmem : (a.id, b.id) ∈ sequentialPairs shifts G := by
        rw [sequentialPairs, mem_pairList]
        refine ⟨p, hp, q, hq, ?_, by rw [hpa], by rw [hqb]⟩
        rw [Bool.and_eq_true, decide_eq_true_eq]
        exact ⟨hpq1, by rw [hpa, hqb]; exact (shiftsSequential_iff a b G).mpr hc⟩
      rw [count_one_of_nodup_mem hnodupS hmem, if_pos hc]
    · have hnot : (a.id, b.id) ∉ sequentialPairs shifts G := by
        intro hmem
        rw [sequentialPairs, mem_pairList] at hmem
        obtain ⟨is, his, jt, hjt, hcond, hx, hy⟩ := hmem
        have heq1 : is = p := enum_entry_inj_id hids his hp (by rw [hx, hpa])
        have heq2 : jt = q := enum_entry_inj_id hids hjt hq (by rw [hy, hqb])
        rw [heq1, heq2, Bool.and_eq_true] at hcond
        rw [hpa, hqb, shiftsSequential_iff] at hcond
        exact hc hcond.2
      rw [List.count_eq_zero.mpr hnot, if_neg hc]

/-- Concrete shifts for the C6 witness: same date, overlapping, not
sequential. -/
def c6ShiftA : Shift := ⟨"a", "d", "r", 0, 100, 1, 1⟩

/-- Second concrete shift for the C6 witness. -/
def c6ShiftB : Shift := ⟨"b", "d", "r", 50, 150, 1, 1⟩

/-- C6 witness: on a concrete two-shift input the overlap pair is stored
exactly once and no sequential pair is emitted. -/
theorem conflictGraph_pairs_witness :
    (overlappingPairs [c6ShiftA, c6ShiftB]).count ("a", "b") +
        (overlappingPairs [c6ShiftA, c6ShiftB]).count ("b", "a") = 1 ∧
      (sequentialPairs [c6ShiftA, c6ShiftB] 2).count ("a", "b") = 0 := by
  have h := conflictGraph_pairs [c6ShiftA, c6ShiftB] 2 (by decide)
    c6ShiftA c6ShiftB (by simp) (by simp) (by decide)
  rcases h with ⟨h1, h2⟩
  rw [if_pos ⟨rfl, by decide, by decide⟩] at h1
  rw [if_neg ?hneg] at h2
  case hneg =>
    intro hcon
    exact absurd hcon.2.1 (by decide)
  exact ⟨h1, h2⟩

/-- Helper for C7: membership in a conditional list. -/
theorem mem_ite_list {α : Type} {c : Prop} [Decidable c] {a : α} {l : List α} :
    (a ∈ if c then l else []) ↔ c ∧ a ∈ l := by
  split
  · next h => simp [h]
  · next h => simp [h]

/-- C7 (amended): the diagnoser emits `guarantee_bottleneck` exactly when
the guarantee level is positive and more than 5 volunteers have at least
one top-`guarantee_level` shift but strictly less than 2 (i.e. at most
1) total capacity over those shifts — the source tests
`eligibleCapacity < 2`, not `≤ 2`. -/
theorem guaranteeBottleneck_iff (shifts : List Shift) (vols : List Volunteer)
    (settings : Settings) :
    IssueType.guaranteeBottleneck ∈ diagnoseInfeasibility shifts vols settings ↔
      0 < settings.guaranteeLevel ∧
        5 < fewOptionsCount shifts vols settings.guaranteeLevel := by
  unfold diagnoseInfeasibility
  simp only [List.mem_append, mem_ite_list, List.mem_singleton, List.not_mem_nil,
    and_false, false_or, or_false, reduceCtorEq, and_true]

/-- C7 counterexample: six volunteers each ranking the single capacity-2
shift first.  The claim's trigger (more than 5 volunteers with at most 2
total eligible capacity) holds, yet the diagnoser emits no
`guarantee_bottleneck` issue, because the source counts only capacity
strictly below 2. -/
def c7Shifts : List Shift := [⟨"s1", "d", "r", 0, 60, 2, 1⟩]

/-- The six volunteers of the C7 counterexample. -/
def c7Vols : List Volunteer :=
  [⟨"v1", 0, [("s1", 1)]⟩, ⟨"v2", 0, [("s1", 1)]⟩, ⟨"v3", 0, [("s1", 1)]⟩,
    ⟨"v4", 0, [("s1", 1)]⟩, ⟨"v5", 0, [("s1", 1)]⟩, ⟨"v6", 0, [("s1", 1)]⟩]

/-- The settings of the C7 counterexample (guarantee level 1). -/
def c7Settings : Settings :=
  { minPoints := 0, maxOver := 0, maxShifts := 1, forbidBackToBack := false,
    backToBackGap := 2, guaranteeLevel := 1, allowRelaxation := false, seed := 0 }

/-- C7 counterexample theorem: the claim's trigger holds at the concrete
input but the diagnoser does not emit `guarantee_bottleneck`. -/
theorem guaranteeBottleneck_claim_counterexample :
    (0 < c7Settings.guaranteeLevel ∧
      5 < claimBottleneckCount c7Shifts c7Vols c7Settings.guaranteeLevel) ∧
    IssueType.guaranteeBottleneck ∉ diagnoseInfeasibility c7Shifts c7Vols c7Settings := by
  refine ⟨⟨by decide, by decide⟩, ?_⟩
  intro hmem
  unfold diagnoseInfeasibility at hmem
  simp only [List.mem_append, mem_ite_list, List.mem_singleton, List.not_mem_nil,
    and_false, false_or, or_false, reduceCtorEq, and_true] at hmem
  have hfew : ¬ 5 < fewOptionsCount c7Shifts c7Vols c7Settings.guaranteeLevel := by decide
  tauto

/-- Helper for C4: raising the target only lowers the constraint row's
value, term by term. -/
theorem avgSatLhs_antitone (vols : List Volunteer) (shiftIds : List String)
    (τ₁ τ₂ : ℚ) (h : τ₁ ≤ τ₂) (vName : String) (x : String → String → Bool) :
    avgSatLhs vols shiftIds τ₂ vName x ≤ avgSatLhs vols shiftIds τ₁ vName x := by
  unfold avgSatLhs
  refine List.sum_le_sum ?_
  intro sId _
  have hb : (0 : ℚ) ≤ (if x vName sId then 1 else 0) := by split <;> norm_num
  have hw : getSatisfactionWeight (getRank vols vName sId) - τ₂ ≤
      getSatisfactionWeight (getRank vols vName sId) - τ₁ := by linarith
  exact mul_le_mul_of_nonneg_right hw hb

/-- C4: for targets `τ₁ < τ₂`, any 0/1 assignment meeting every
volunteer's average-satisfaction row
`Σ (W(rank) − τ₂) · x ≥ 0` also meets the row with `τ₁`; hence
feasibility of the phase-1 MILP (the τ-row together with the
τ-independent constraints `P`) transfers from `τ₂` down to `τ₁`. -/
theorem avgConstraint_monotone (vols : List Volunteer) (shiftIds : List String)
    (τ₁ τ₂ : ℚ) (hτ : τ₁ < τ₂) :
    (∀ x : String → String → Bool,
      (∀ v ∈ vols, 0 ≤ avgSatLhs vols shiftIds τ₂ v.name x) →
        ∀ v ∈ vols, 0 ≤ avgSatLhs vols shiftIds τ₁ v.name x) ∧
    (∀ P : (String → String → Bool) → Prop,
      (∃ x, P x ∧ ∀ v ∈ vols, 0 ≤ avgSatLhs vols shiftIds τ₂ v.name x) →
        ∃ x, P x ∧ ∀ v ∈ vols, 0 ≤ avgSatLhs vols shiftIds τ₁ v.name x) := by
  have key : ∀ (x : String → String → Bool),
      (∀ v ∈ vols, 0 ≤ avgSatLhs vols shiftIds τ₂ v.name x) →
        ∀ v ∈ vols, 0 ≤ avgSatLhs vols shiftIds τ₁ v.name x := by
    intro x hx v hv
    exact le_trans (hx v hv) (avgSatLhs_antitone vols shiftIds τ₁ τ₂ hτ.le v.name x)
  exact ⟨key, fun P ⟨x, hP, hx⟩ => ⟨x, hP, key x hx⟩⟩

/-- C4 witness: a concrete instance at `τ₁ = 1 < 2 = τ₂` with the
all-ones assignment. -/
theorem avgConstraint_monotone_witness :
    ∃ x, True ∧ ∀ v ∈ [Volunteer.mk "A" 0 [("s", 1)]],
      0 ≤ avgSatLhs [Volunteer.mk "A" 0 [("s", 1)]] [] 1 v.name x :=
  (avgConstraint_monotone [Volunteer.mk "A" 0 [("s", 1)]] [] 1 2 (by norm_num)).2
    (fun _ => True)
    ⟨fun _ _ => true, trivial, by simp [avgSatLhs]⟩

end VSH
